import Mathlib

/-!
Verification of the xxbf pipeline (parser, soup IR builder, VM, C transpiler)
against its natural-language specification.

Shallow embedding conventions:
* Rust `u8` cell values are `Nat` kept below 256; wrapping ops are explicit `% 256`.
* Rust `usize` is `Nat`; `isize` is `Int`.  The cast chain
  `(x as isize + d) as usize` is modelled by `wrapCast (x + d)`, i.e. the
  representative of `x + d` modulo `2 ^ 64` (a `usize → isize` reinterpretation
  followed by an `isize → usize` reinterpretation composes to reduction mod
  `2 ^ 64`; Rust `as` casts between integers always wrap and never panic).
* Arithmetic on `usize`/`isize` values themselves (`head += 1`, accumulation of
  `head_delta`) is overflow-checked in the source's debug profile; the one
  reachable check, `head += 1` in `run_raw`, is modelled as a fatal stop at
  `2 ^ 64 - 1`.  The `isize` accumulators in `soupify` are modelled as exact
  `Int`s (their magnitude is bounded by the program length).
* Rust `Vec` used as a stack is modelled as a `List` whose head is the stack
  top (Rust pushes/pops at the end of the `Vec`).
* `HashMap<isize, isize>` is modelled as an association list
  `List (Int × Int)` with pairwise distinct keys; iteration over the map is a
  fold over the list.  (Theorem for claim C9 shows the fold is invariant under
  permutation of the entries, so the choice of order is immaterial.)
* Panics (failed `assert!`, fatal faults) are the `RunRes.fatal` outcome;
  the interpreter loops are driven by an explicit fuel so that every
  function is total, with `RunRes.timeout` for fuel exhaustion.
* Byte positions from `char_indices` coincide with character indices for
  ASCII sources; sources are modelled as `List Char` with positional indexing.
* Console printing (live echo, colors, the trailing newline) has no effect on
  the returned output byte sequence and is not modelled; interactive stdin is
  modelled as a pure stream `stdin : Nat → Nat` read at an advancing position.
-/

namespace XXBF

/-- Raw AST (src/astraw.rs, `enum RawInstr`).  `parser.rs`/`vm.rs` call the
I/O variants `Dot`/`Comma`; `astraw.rs`/`astsoup.rs` call them
`Output`/`Input`.  We follow `astraw.rs`. -/
inductive RawInstr where
  | plus
  | minus
  | left
  | right
  | output
  | input
  | bracketLoop (body : List RawInstr)
deriving Repr

/-- Soup IR (src/astsoup.rs, `enum SoupInstr`; `vm.rs` refers to it as
`Block`).  `cell_deltas : HashMap<isize, isize>` is an association list with
distinct keys. -/
inductive SoupInstr where
  | soup (cell_deltas : List (Int × Int)) (head_delta : Int)
  | output
  | input
  | multFixedLoop (cell_deltas : List (Int × Int))
  | soupFixedLoop (cell_deltas : List (Int × Int))
  | soupMovingLoop (cell_deltas : List (Int × Int)) (head_delta : Int)
  | loop (body : List SoupInstr)
deriving Repr

/-! ## Parser (src/parser.rs) -/

/-- A parser scope (src/parser.rs `struct Scope`). -/
structure Scope where
  opening_bracket_pos : Option Nat
  instr_seq : List RawInstr
deriving Repr

/-- Parse errors (src/parser.rs `enum ParsingError`). -/
inductive ParsingError where
  | unmatchedOpeningBracket (pos : Nat)
  | unmatchedClosingBracket (pos : Nat)
deriving Repr, DecidableEq

/-- The source position carried by a parse error. -/
def ParsingError.pos : ParsingError → Nat
  | .unmatchedOpeningBracket p => p
  | .unmatchedClosingBracket p => p

/-- `scope_stack.top_instr_seq().push(i)`: append an instruction to the
innermost scope.  The stack is never empty (root scope always present). -/
def pushTopInstr (stack : List Scope) (i : RawInstr) : List Scope :=
  match stack with
  | s :: rest => { s with instr_seq := s.instr_seq ++ [i] } :: rest
  | [] => []

/-- The `for (pos, c) in src_code.char_indices()` scan loop of
`parse_instr_seq`.  The scope stack has its top at the list head
(Rust `Vec` top is at the end). -/
def parseGo : List (Nat × Char) → List Scope → List ParsingError →
    List Scope × List ParsingError
  | [], stack, errors => (stack, errors)
  | (pos, c) :: rest, stack, errors =>
    if c = '+' then parseGo rest (pushTopInstr stack .plus) errors
    else if c = '-' then parseGo rest (pushTopInstr stack .minus) errors
    else if c = '<' then parseGo rest (pushTopInstr stack .left) errors
    else if c = '>' then parseGo rest (pushTopInstr stack .right) errors
    else if c = '.' then parseGo rest (pushTopInstr stack .output) errors
    else if c = ',' then parseGo rest (pushTopInstr stack .input) errors
    else if c = '[' then parseGo rest (⟨some pos, []⟩ :: stack) errors
    else if c = ']' then
      match stack with
      | s :: s2 :: stackRest =>
          parseGo rest (pushTopInstr (s2 :: stackRest) (.bracketLoop s.instr_seq)) errors
      | _ => parseGo rest stack (errors ++ [.unmatchedClosingBracket pos])
    else parseGo rest stack errors

/-- src/parser.rs `parse_instr_seq`.  After the scan, still-open non-root
scopes are drained bottom-up (`remove(1)` in the source), which with our
top-at-head representation is `stack.dropLast.reverse`. -/
def parse_instr_seq (src : List Char) : Except (List ParsingError) (List RawInstr) :=
  let scanned := parseGo src.enum [⟨none, []⟩] []
  let errors := scanned.2 ++ scanned.1.dropLast.reverse.map
    (fun s => ParsingError.unmatchedOpeningBracket (s.opening_bracket_pos.getD 0))
  if errors.isEmpty then
    .ok ((scanned.1.head?.map Scope.instr_seq).getD [])
  else
    .error errors

/-! ## Soup builder (src/astsoup.rs `soupify`) -/

/-- `cell_deltas.entry(k).or_insert(0) += d` on the association list. -/
def updateEntry : List (Int × Int) → Int → Int → List (Int × Int)
  | [], k, d => [(k, d)]
  | (k', v) :: rest, k, d =>
    if k' = k then (k', v + d) :: rest else (k', v) :: updateEntry rest k d

/-- `cell_deltas.get(&k)` with `unwrap_or(&0)`. -/
def lookupD (cds : List (Int × Int)) (k : Int) : Int := (cds.lookup k).getD 0

/-- Effect of one primitive instruction on a current `Soup` batch
(the four mutation arms inside `soupify`). -/
def primApply (cds : List (Int × Int)) (hd : Int) : RawInstr → SoupInstr
  | .plus => .soup (updateEntry cds hd 1) hd
  | .minus => .soup (updateEntry cds hd (-1)) hd
  | .left => .soup cds (hd - 1)
  | .right => .soup cds (hd + 1)
  | _ => .soup cds hd

/-- `top_must_be_soup` followed by the primitive's mutation of the trailing
batch.  The accumulator holds the soup program in reverse (head = most
recently pushed node = `soup_prog.last_mut()`). -/
def primStep (acc : List SoupInstr) (i : RawInstr) : List SoupInstr :=
  match acc with
  | SoupInstr.soup cds hd :: rest => primApply cds hd i :: rest
  | _ => primApply [] 0 i :: acc

/-- Classification of a recursively soupified loop body
(the `RawInstr::BracketLoop` arm of `soupify`). -/
def classify (body : List SoupInstr) : SoupInstr :=
  match body with
  | [SoupInstr.soup cds hd] =>
    if hd = 0 ∧ lookupD cds 0 = -1 then .multFixedLoop cds
    else if hd = 0 then .soupFixedLoop cds
    else .soupMovingLoop cds hd
  | _ => .loop body

/-- The `for raw_instr in raw_prog` loop of `soupify`, accumulator reversed
(head = last pushed). -/
def soupifyGo : List RawInstr → List SoupInstr → List SoupInstr
  | [], acc => acc
  | i :: rest, acc =>
    match i with
    | .plus => soupifyGo rest (primStep acc .plus)
    | .minus => soupifyGo rest (primStep acc .minus)
    | .left => soupifyGo rest (primStep acc .left)
    | .right => soupifyGo rest (primStep acc .right)
    | .output => soupifyGo rest (.output :: acc)
    | .input => soupifyGo rest (.input :: acc)
    | .bracketLoop body =>
        soupifyGo rest (classify ((soupifyGo body []).reverse) :: acc)
termination_by l _ => sizeOf l
decreasing_by all_goals simp_wf <;> omega

/-- src/astsoup.rs `soupify`. -/
def soupify (raw_prog : List RawInstr) : List SoupInstr :=
  (soupifyGo raw_prog []).reverse

/-! ## VM (src/vm.rs) -/

/-- `2 ^ 64`, the modulus of `usize` arithmetic. -/
def U64 : Nat := 2 ^ 64

/-- Composition `(… as isize) + delta` followed by `as usize`: reduction
modulo `2 ^ 64` of the exact integer. -/
def wrapCast (i : Int) : Nat := (i % (U64 : Int)).toNat

/-- `((x) as usize % 256) as u8` applied to the exact integer `x`. -/
def wrapCast8 (i : Int) : Nat := wrapCast i % 256

/-- src/vm.rs `struct VmMem`.  `stdin_pos` is the read position in the
modelled interactive stdin stream. -/
structure VmMem where
  cell_vec : List Nat
  head : Nat
  interact_with_user : Bool
  input_stack : List Nat
  output_stack : List Nat
  stdin_pos : Nat
deriving Repr, DecidableEq

/-- `VmMem::new`.  The Rust input stack is `rev(buf ++ [0])` with the `Vec`
top at the end; with our top-at-head representation that list is
`buf ++ [0]`. -/
def VmMem.new (input : Option (List Nat)) : VmMem :=
  { cell_vec := []
    head := 0
    interact_with_user := input.isNone
    input_stack := (input.map (fun v => v ++ [0])).getD []
    output_stack := []
    stdin_pos := 0 }

/-- `VmMem::get`. -/
def VmMem.get (m : VmMem) (index : Nat) : Nat := m.cell_vec.getD index 0

/-- `VmMem::set`: zero-extend the backing vector when writing at or past its
length, then assign. -/
def VmMem.set (m : VmMem) (index : Nat) (value : Nat) : VmMem :=
  let len := m.cell_vec.length
  let cv :=
    if len ≤ index then m.cell_vec ++ List.replicate (index + 1 - len) 0
    else m.cell_vec
  { m with cell_vec := cv.set index value }

/-- `VmMem::output_char_value` (the interactive echo prints to the console
only; the returned output sequence is `output_stack`). -/
def VmMem.outputCharValue (m : VmMem) (v : Nat) : VmMem :=
  { m with output_stack := m.output_stack ++ [v] }

/-- `VmMem::input_char_value`: pop the buffered input; when empty, read one
byte from stdin in interactive mode, else yield 0. -/
def VmMem.inputCharValue (stdin : Nat → Nat) (m : VmMem) : Nat × VmMem :=
  match m.input_stack with
  | v :: rest => (v, { m with input_stack := rest })
  | [] =>
    if m.interact_with_user then
      (stdin m.stdin_pos % 256, { m with stdin_pos := m.stdin_pos + 1 })
    else (0, m)

/-- Outcome of a fuelled run: normal completion, a panic/fatal fault, or
fuel exhaustion (model artifact). -/
inductive RunRes where
  | ok (m : VmMem)
  | fatal
  | timeout
deriving Repr, DecidableEq

/-- The `while let Some(instr) = instr_stack.pop()` loop of `run_raw`.
The instruction stack has its top at the list head, so the initial stack is
the program itself and a loop pushes `body ++ loop :: rest`.
`Left` at head 0 fails the `assert!(m.head >= 1)`; `Right` at
`2 ^ 64 - 1` is the debug-profile `usize` overflow panic. -/
def runRawGo (stdin : Nat → Nat) : Nat → List RawInstr → VmMem → RunRes
  | _, [], m => .ok m
  | 0, _ :: _, _ => .timeout
  | fuel + 1, i :: rest, m =>
    match i with
    | .plus => runRawGo stdin fuel rest (m.set m.head ((m.get m.head + 1) % 256))
    | .minus => runRawGo stdin fuel rest (m.set m.head ((m.get m.head + 255) % 256))
    | .left =>
        if m.head = 0 then .fatal
        else runRawGo stdin fuel rest { m with head := m.head - 1 }
    | .right =>
        if m.head + 1 < U64 then runRawGo stdin fuel rest { m with head := m.head + 1 }
        else .fatal
    | .output => runRawGo stdin fuel rest (m.outputCharValue (m.get m.head))
    | .input =>
        let r := m.inputCharValue stdin
        runRawGo stdin fuel rest (r.2.set r.2.head r.1)
    | .bracketLoop body =>
        if m.get m.head ≠ 0 then runRawGo stdin fuel (body ++ i :: rest) m
        else runRawGo stdin fuel rest m

/-- One entry of the `for (relative_head, delta) in cell_deltas.iter()` loop
of the `Block::Soup` arm. -/
def soupCellStep (m : VmMem) (kd : Int × Int) : VmMem :=
  let index := wrapCast ((m.head : Int) + kd.1)
  let old : Int := m.get index
  m.set index (wrapCast8 (old + kd.2))

/-- The whole `cell_deltas` loop of the `Block::Soup` arm. -/
def applySoupDeltas (m : VmMem) (cds : List (Int × Int)) : VmMem :=
  cds.foldl soupCellStep m

/-- One entry of the `cell_deltas` loop of the `Block::MultFixedLoop` arm
(`delta * n`). -/
def multCellStep (n : Int) (m : VmMem) (kd : Int × Int) : VmMem :=
  let index := wrapCast ((m.head : Int) + kd.1)
  let old : Int := m.get index
  m.set index (wrapCast8 (old + kd.2 * n))

/-- The whole `cell_deltas` loop of the `Block::MultFixedLoop` arm. -/
def applyMultDeltas (m : VmMem) (cds : List (Int × Int)) (n : Int) : VmMem :=
  cds.foldl (multCellStep n) m

/-- The `while let Some(instr) = instr_stack.pop()` loop of `run_soup`.
The failed `assert!(matches!(cell_deltas.get(&0), Some(-1)))` of the
`MultFixedLoop` arm is the `fatal` outcome. -/
def runSoupGo (stdin : Nat → Nat) : Nat → List SoupInstr → VmMem → RunRes
  | _, [], m => .ok m
  | 0, _ :: _, _ => .timeout
  | fuel + 1, i :: rest, m =>
    match i with
    | .soup cds hd =>
        let m1 := applySoupDeltas m cds
        runSoupGo stdin fuel rest { m1 with head := wrapCast ((m1.head : Int) + hd) }
    | .output => runSoupGo stdin fuel rest (m.outputCharValue (m.get m.head))
    | .input =>
        let r := m.inputCharValue stdin
        runSoupGo stdin fuel rest (r.2.set r.2.head r.1)
    | .multFixedLoop cds =>
        if cds.lookup 0 = some (-1) then
          let m1 := applyMultDeltas m cds ((m.get m.head : Int))
          runSoupGo stdin fuel rest (m1.set m1.head 0)
        else .fatal
    | .soupFixedLoop cds =>
        let m1 := applySoupDeltas m cds
        if m1.get m1.head ≠ 0 then runSoupGo stdin fuel (i :: rest) m1
        else runSoupGo stdin fuel rest m1
    | .soupMovingLoop cds hd =>
        let m1 := applySoupDeltas m cds
        let m2 := { m1 with head := wrapCast ((m1.head : Int) + hd) }
        if m2.get m2.head ≠ 0 then runSoupGo stdin fuel (i :: rest) m2
        else runSoupGo stdin fuel rest m2
    | .loop body =>
        if m.get m.head ≠ 0 then runSoupGo stdin fuel (body ++ i :: rest) m
        else runSoupGo stdin fuel rest m

/-- src/vm.rs `run_raw`, fuelled. -/
def run_raw (stdin : Nat → Nat) (fuel : Nat) (prog : List RawInstr)
    (input : Option (List Nat)) : RunRes :=
  runRawGo stdin fuel prog (VmMem.new input)

/-- src/vm.rs `run_soup`, fuelled. -/
def run_soup (stdin : Nat → Nat) (fuel : Nat) (prog : List SoupInstr)
    (input : Option (List Nat)) : RunRes :=
  runSoupGo stdin fuel prog (VmMem.new input)

/-! ## C transpiler (src/ctranspiler.rs)

The source accumulates a single string; each `emit_line` call appends
indentation tabs, the line content and a newline.  We model the emitted code
as the list of its lines (the accumulated string is their concatenation,
each followed by a newline). -/

/-- Indentation prefix of `emit_line`. -/
def tabs (n : Nat) : String := String.mk (List.replicate n '\t')

/-- `TranspiledC::emit_line`: one output line at the given indent level. -/
def emitLine (ind : Nat) (content : String) : String := tabs ind ++ content

/-- `sort_cell_deltas`: the map's entries sorted by ascending relative head
position (distinct keys, so stability is irrelevant). -/
def sortCellDeltas (cds : List (Int × Int)) : List (Int × Int) :=
  cds.mergeSort (fun a b => a.1 ≤ b.1)

/-- `fn h(relative_head)`: the C index expression. -/
def hExpr (relative_head : Int) : String :=
  if relative_head = 0 then "h" else "h + " ++ toString relative_head

/-- One `m[...] += delta;` statement of a batch. -/
def soupStmt (kd : Int × Int) : String :=
  "m[" ++ hExpr kd.1 ++ "] += " ++ toString kd.2 ++ ";"

/-- `TranspiledC::emit_soup_instr_seq`, collecting the emitted lines.
In the `MultFixedLoop` arm the source `assert!`s that the offset-0 delta is
`-1` (see claim C8) and skips the offset-0 entry (`continue`). -/
def emitSoupGo (ind : Nat) : List SoupInstr → List String
  | [] => []
  | i :: rest =>
    (match i with
     | .soup cds hd =>
         (sortCellDeltas cds).map (fun kd => emitLine ind (soupStmt kd)) ++
           (if hd ≠ 0 then [emitLine ind ("h += " ++ toString hd ++ ";")] else [])
     | .output => [emitLine ind "putchar(m[h]);"]
     | .input => [emitLine ind "m[h] = getchar();"]
     | .multFixedLoop cds =>
         ((sortCellDeltas cds).filter (fun kd => kd.1 ≠ 0)).map
           (fun kd =>
             emitLine ind ("m[" ++ hExpr kd.1 ++ "] += m[h] * " ++ toString kd.2 ++ ";")) ++
           [emitLine ind "m[h] = 0;"]
     | .soupFixedLoop cds =>
         [emitLine ind "while (m[h])", emitLine ind "\x7b"] ++
           (sortCellDeltas cds).map (fun kd => emitLine (ind + 1) (soupStmt kd)) ++
           [emitLine ind "\x7d"]
     | .soupMovingLoop cds hd =>
         [emitLine ind "while (m[h])", emitLine ind "\x7b"] ++
           (sortCellDeltas cds).map (fun kd => emitLine (ind + 1) (soupStmt kd)) ++
           [emitLine (ind + 1) ("h += " ++ toString hd ++ ";"), emitLine ind "\x7d"]
     | .loop body =>
         [emitLine ind "while (m[h])", emitLine ind "\x7b"] ++
           emitSoupGo (ind + 1) body ++ [emitLine ind "\x7d"]) ++
      emitSoupGo ind rest
termination_by l => sizeOf l
decreasing_by all_goals simp_wf <;> omega

/-! ## Basic lemmas about the tape -/

theorem VmMem.length_set (m : VmMem) (k v : Nat) :
    (m.set k v).cell_vec.length = max m.cell_vec.length (k + 1) := by
  simp only [VmMem.set]
  split <;> rename_i h <;> simp [List.length_set] <;> omega

theorem VmMem.get_set (m : VmMem) (k v j : Nat) :
    (m.set k v).get j = if j = k then v else m.get j := by
  simp only [VmMem.set, VmMem.get, List.getD_eq_getElem?_getD]
  rw [List.getElem?_set]
  rcases eq_or_ne j k with h | h
  · subst h
    have hk : j < (if m.cell_vec.length ≤ j then
        m.cell_vec ++ List.replicate (j + 1 - m.cell_vec.length) 0
        else m.cell_vec).length := by
      split <;> rename_i hh
      · simp only [List.length_append, List.length_replicate]; omega
      · omega
    rw [if_pos rfl, if_pos hk, if_pos rfl]
    rfl
  · rw [if_neg (fun hh => h hh.symm), if_neg h]
    split <;> rename_i hlen
    · rw [List.getElem?_append]
      split
      · rfl
      · rename_i hj
        rw [List.getElem?_replicate,
          List.getElem?_eq_none (by omega : m.cell_vec.length ≤ j)]
        split <;> rfl
    · rfl

theorem VmMem.set_fields (m : VmMem) (k v : Nat) :
    (m.set k v).head = m.head ∧
    (m.set k v).interact_with_user = m.interact_with_user ∧
    (m.set k v).input_stack = m.input_stack ∧
    (m.set k v).output_stack = m.output_stack ∧
    (m.set k v).stdin_pos = m.stdin_pos := by
  simp [VmMem.set]

theorem VmMem.head_set (m : VmMem) (k v : Nat) : (m.set k v).head = m.head := rfl

/-! ## Claim C6 -/

/-- C6: parsing the source text `]+[` returns the error list
`[UnmatchedClosingBracket at 0, UnmatchedOpeningBracket at 2]`, in that
order, and no instruction sequence. -/
theorem c6_parse_errors_of_close_plus_open :
    parse_instr_seq [']', '+', '['] =
      .error [ParsingError.unmatchedClosingBracket 0,
        ParsingError.unmatchedOpeningBracket 2] := by
  rfl

/-! ## Claim C5 -/

/-- C5: reads beyond the backing vector (and of any never-written index)
yield 0; `set` at an index at or past the length zero-fills every
intervening index; the backing length never decreases; and `set` only
changes the written index. -/
theorem c5_tape_zero_fill_and_growth :
    (∀ (input : Option (List Nat)) (i : Nat), (VmMem.new input).get i = 0) ∧
    (∀ (m : VmMem) (i : Nat), m.cell_vec.length ≤ i → m.get i = 0) ∧
    (∀ (m : VmMem) (k v j : Nat), m.cell_vec.length ≤ j → j ≠ k →
      (m.set k v).get j = 0) ∧
    (∀ (m : VmMem) (k v : Nat),
      (m.set k v).cell_vec.length = max m.cell_vec.length (k + 1)) ∧
    (∀ (m : VmMem) (k v : Nat),
      m.cell_vec.length ≤ (m.set k v).cell_vec.length) ∧
    (∀ (m : VmMem) (k v j : Nat),
      (m.set k v).get j = if j = k then v else m.get j) := by
  have hbeyond : ∀ (m : VmMem) (i : Nat), m.cell_vec.length ≤ i → m.get i = 0 := by
    intro m i hi
    simp [VmMem.get, List.getD_eq_getElem?_getD, List.getElem?_eq_none hi]
  refine ⟨?_, hbeyond, ?_, VmMem.length_set, ?_, VmMem.get_set⟩
  · intro input i
    simp [VmMem.new, VmMem.get]
  · intro m k v j hj hne
    rw [VmMem.get_set, if_neg hne, hbeyond m j hj]
  · intro m k v
    rw [VmMem.length_set]
    omega

/-- Witness for C5 at concrete inputs. -/
theorem c5_tape_zero_fill_and_growth_witness :
    (VmMem.new none).get 7 = 0 ∧
    ((VmMem.new none).set 4 9).get 2 = 0 ∧
    ((VmMem.new none).set 4 9).cell_vec.length = max 0 5 :=
  ⟨c5_tape_zero_fill_and_growth.1 none 7,
   c5_tape_zero_fill_and_growth.2.2.1 (VmMem.new none) 4 9 2 (by decide) (by decide),
   c5_tape_zero_fill_and_growth.2.2.2.1 (VmMem.new none) 4 9⟩

/-! ## Claim C3 -/

/-- C3: when the IR engine pops a `SoupFixedLoop` or `SoupMovingLoop`, it
applies the cell-delta batch (and, for the moving loop, the head shift)
once, then tests the head cell at the resulting position, and re-pushes the
very same node exactly when that cell is nonzero; the batch is applied
before any test of the head cell. -/
theorem c3_fixed_moving_loops_apply_then_test
    (stdin : Nat → Nat) (fuel : Nat) (rest : List SoupInstr) (m : VmMem)
    (cds : List (Int × Int)) (hd : Int) :
    (runSoupGo stdin (fuel + 1) (.soupFixedLoop cds :: rest) m =
      (let m1 := applySoupDeltas m cds
       runSoupGo stdin fuel
         (if m1.get m1.head ≠ 0 then .soupFixedLoop cds :: rest else rest) m1)) ∧
    (runSoupGo stdin (fuel + 1) (.soupMovingLoop cds hd :: rest) m =
      (let m1 := applySoupDeltas m cds
       let m2 := { m1 with head := wrapCast ((m1.head : Int) + hd) }
       runSoupGo stdin fuel
         (if m2.get m2.head ≠ 0 then .soupMovingLoop cds hd :: rest else rest) m2)) := by
  constructor <;> (simp only [runSoupGo]; split <;> simp_all)

/-! ## Claim C4 -/

/-- C4 counterexample: in the IR engine a batch whose `head_delta` takes the
head below 0 is NOT fatal: the head wraps (two's-complement cast) to
`2 ^ 64 - 1` and execution continues — here a subsequent `Output` still
runs, so the run does not terminate at the offending operation. -/
theorem c4_counterexample_ir_head_underflow_not_fatal :
    run_soup (fun _ => 0) 5 [SoupInstr.soup [] (-1), SoupInstr.output] (some []) =
      .ok { cell_vec := [], head := 2 ^ 64 - 1, interact_with_user := false,
            input_stack := [0], output_stack := [0], stdin_pos := 0 } := by
  decide

/-- C4 as amended: in the raw engine, `Left` at head 0 is fatal, terminating
the run immediately (whatever instructions remain).  The IR engine performs
no such check: for any `Soup` batch the head becomes the wrapped cast
`wrapCast (head + head_delta)` — a huge index when the shift would go
negative — and execution simply continues with the rest of the program; for
any `SoupMovingLoop` the head likewise wraps and execution continues with
the loop test at the wrapped position, never aborting at the shift. -/
theorem c4_amended_underflow_fatal_raw_wrapping_soup :
    (∀ (stdin : Nat → Nat) (fuel : Nat) (rest : List RawInstr) (m : VmMem),
      m.head = 0 → runRawGo stdin (fuel + 1) (.left :: rest) m = .fatal) ∧
    (∀ (stdin : Nat → Nat) (fuel : Nat) (rest : List SoupInstr) (m : VmMem)
        (cds : List (Int × Int)) (d : Int),
      runSoupGo stdin (fuel + 1) (.soup cds d :: rest) m =
        runSoupGo stdin fuel rest
          { applySoupDeltas m cds with
            head := wrapCast (((applySoupDeltas m cds).head : Int) + d) }) ∧
    (∀ (stdin : Nat → Nat) (fuel : Nat) (rest : List SoupInstr) (m : VmMem)
        (cds : List (Int × Int)) (d : Int),
      runSoupGo stdin (fuel + 1) (.soupMovingLoop cds d :: rest) m =
        (let m1 := applySoupDeltas m cds
         let m2 := { m1 with head := wrapCast ((m1.head : Int) + d) }
         runSoupGo stdin fuel
           (if m2.get m2.head ≠ 0 then .soupMovingLoop cds d :: rest else rest) m2)) := by
  refine ⟨?_, ?_, ?_⟩
  · intro stdin fuel rest m h
    simp [runRawGo, h]
  · intro stdin fuel rest m cds d
    rfl
  · intro stdin fuel rest m cds d
    simp only [runSoupGo]
    split <;> simp_all

/-- Witness for the amended C4 at concrete inputs: a fatal raw `Left` at
head 0, and a nonempty batch and a moving loop whose `-1` head shift wraps
and continues. -/
theorem c4_amended_underflow_fatal_raw_wrapping_soup_witness :
    runRawGo (fun _ => 0) 3 [RawInstr.left, RawInstr.output] (VmMem.new (some [])) = .fatal ∧
    runSoupGo (fun _ => 0) 3 [SoupInstr.soup [(0, 1)] (-1), SoupInstr.output]
        (VmMem.new (some [])) =
      runSoupGo (fun _ => 0) 2 [SoupInstr.output]
        { applySoupDeltas (VmMem.new (some [])) [(0, 1)] with
          head := wrapCast
            (((applySoupDeltas (VmMem.new (some [])) [(0, 1)]).head : Int) + (-1)) } ∧
    runSoupGo (fun _ => 0) 3 [SoupInstr.soupMovingLoop [(0, 1)] (-1)] (VmMem.new (some [])) =
      (let m1 := applySoupDeltas (VmMem.new (some [])) [(0, 1)]
       let m2 := { m1 with head := wrapCast ((m1.head : Int) + (-1)) }
       runSoupGo (fun _ => 0) 2
         (if m2.get m2.head ≠ 0 then [SoupInstr.soupMovingLoop [(0, 1)] (-1)] else []) m2) :=
  ⟨c4_amended_underflow_fatal_raw_wrapping_soup.1 (fun _ => 0) 2 [RawInstr.output]
      (VmMem.new (some [])) rfl,
   c4_amended_underflow_fatal_raw_wrapping_soup.2.1 (fun _ => 0) 2 [SoupInstr.output]
      (VmMem.new (some [])) [(0, 1)] (-1),
   c4_amended_underflow_fatal_raw_wrapping_soup.2.2 (fun _ => 0) 2 []
      (VmMem.new (some [])) [(0, 1)] (-1)⟩

/-! ## Claim C8 -/

mutual

/-- The `MultFixedLoop` well-formedness checked by the
`assert!(matches!(cell_deltas.get(&0), Some(-1)))` in both `run_soup` and
`emit_soup_instr_seq`: the offset-0 delta is exactly `-1`, at any depth. -/
def multOk : SoupInstr → Bool
  | .multFixedLoop cds => cds.lookup 0 == some (-1)
  | .loop body => multOkList body
  | _ => true

/-- `multOk` for every node of a sequence. -/
def multOkList : List SoupInstr → Bool
  | [] => true
  | i :: rest => multOk i && multOkList rest

end

theorem multOkList_append (a b : List SoupInstr) :
    multOkList (a ++ b) = (multOkList a && multOkList b) := by
  induction a with
  | nil => simp [multOkList]
  | cons i rest ih => simp [multOkList, ih, Bool.and_assoc]

theorem multOkList_reverse (l : List SoupInstr) :
    multOkList l.reverse = multOkList l := by
  induction l with
  | nil => rfl
  | cons i rest ih =>
    simp [multOkList, List.reverse_cons, multOkList_append, ih, Bool.and_comm]

theorem multOk_primApply (cds : List (Int × Int)) (hd : Int) (i : RawInstr) :
    multOk (primApply cds hd i) = true := by
  cases i <;> simp [primApply, multOk]

theorem multOkList_primStep (acc : List SoupInstr) (i : RawInstr) :
    multOkList (primStep acc i) = multOkList acc := by
  unfold primStep
  split
  · rename_i cds hd rest
    simp [multOkList, multOk_primApply, multOk]
  · simp [multOkList, multOk_primApply]

theorem multOk_classify (body : List SoupInstr) (h : multOkList body = true) :
    multOk (classify body) = true := by
  unfold classify
  split
  · rename_i cds hd
    split <;> rename_i hc
    · have hl : cds.lookup 0 = some (-1) := by
        rcases hl : cds.lookup 0 with _ | v
        · exfalso
          have := hc.2
          rw [lookupD, hl] at this
          simp at this
        · have := hc.2
          rw [lookupD, hl] at this
          simp at this
          rw [this]
      simp [multOk, hl]
    · split <;> simp [multOk]
  · simpa [multOk] using h

theorem multOkList_soupifyGo (l : List RawInstr) (acc : List SoupInstr) :
    multOkList acc = true → multOkList (soupifyGo l acc) = true := by
  induction l, acc using soupifyGo.induct with
  | case1 acc =>
    intro h
    simpa [soupifyGo] using h
  | case2 rest acc ih =>
    intro h
    rw [soupifyGo]
    exact ih (by rw [multOkList_primStep]; exact h)
  | case3 rest acc ih =>
    intro h
    rw [soupifyGo]
    exact ih (by rw [multOkList_primStep]; exact h)
  | case4 rest acc ih =>
    intro h
    rw [soupifyGo]
    exact ih (by rw [multOkList_primStep]; exact h)
  | case5 rest acc ih =>
    intro h
    rw [soupifyGo]
    exact ih (by rw [multOkList_primStep]; exact h)
  | case6 rest acc ih =>
    intro h
    rw [soupifyGo]
    exact ih (by simp [multOkList, multOk, h])
  | case7 rest acc ih =>
    intro h
    rw [soupifyGo]
    exact ih (by simp [multOkList, multOk, h])
  | case8 rest acc body ihbody ih =>
    intro h
    rw [soupifyGo]
    refine ih ?_
    have hb : multOkList ((soupifyGo body []).reverse) = true := by
      rw [multOkList_reverse]
      exact ihbody rfl
    simp [multOkList, multOk_classify _ hb, h]

/-- C8: every `MultFixedLoop` at any depth of a soupified program carries an
offset-0 delta of exactly `-1` (`lookup 0 = some (-1)`), which is precisely
the condition asserted by `run_soup`'s `MultFixedLoop` arm and by the code
generator before emitting a `MultFixedLoop`; those assertions can therefore
never fail on `soupify` output. -/
theorem c8_multFixedLoop_invariant (prog : List RawInstr) :
    multOkList (soupify prog) = true := by
  rw [soupify, multOkList_reverse]
  exact multOkList_soupifyGo prog [] rfl

/-! ## Claim C7 -/

theorem sortCellDeltas_perm (cds : List (Int × Int)) : (sortCellDeltas cds).Perm cds :=
  List.mergeSort_perm cds _

theorem sortCellDeltas_key_le (cds : List (Int × Int)) :
    List.Pairwise (fun a b : Int × Int => a.1 ≤ b.1) (sortCellDeltas cds) := by
  rw [sortCellDeltas]
  have htrans : ∀ (a b c : Int × Int),
      (fun x y : Int × Int => decide (x.1 ≤ y.1)) a b = true →
      (fun x y : Int × Int => decide (x.1 ≤ y.1)) b c = true →
      (fun x y : Int × Int => decide (x.1 ≤ y.1)) a c = true := by
    intro a b c hab hbc
    simp only [decide_eq_true_eq] at *
    omega
  have htot : ∀ (a b : Int × Int),
      ((fun x y : Int × Int => decide (x.1 ≤ y.1)) a b ||
        (fun x y : Int × Int => decide (x.1 ≤ y.1)) b a) = true := by
    intro a b
    simp only [Bool.or_eq_true, decide_eq_true_eq]
    omega
  have h := List.sorted_mergeSort htrans htot cds
  exact h.imp (fun hh => by simpa using hh)

theorem sortCellDeltas_chain_lt (cds : List (Int × Int))
    (hnd : (cds.map Prod.fst).Nodup) :
    List.Chain' (· < ·) ((sortCellDeltas cds).map Prod.fst) := by
  have hperm : ((sortCellDeltas cds).map Prod.fst).Perm (cds.map Prod.fst) :=
    (sortCellDeltas_perm cds).map _
  have hnd' : ((sortCellDeltas cds).map Prod.fst).Nodup := hperm.nodup_iff.mpr hnd
  have hle : List.Pairwise (· ≤ ·) ((sortCellDeltas cds).map Prod.fst) := by
    rw [List.pairwise_map]
    exact sortCellDeltas_key_le cds
  have hlt : List.Pairwise (· < ·) ((sortCellDeltas cds).map Prod.fst) := by
    refine (hle.and hnd').imp ?_
    intro a b hab
    exact lt_of_le_of_ne hab.1 hab.2
  exact hlt.chain'

/-- C7 counterexample: for the Batch node `Soup (cell_deltas 0 ↦ 1, head_delta 0)`
the generator emits the statement `m[h] += 1;` for the offset-0 entry,
whereas emitting one statement per NONZERO-offset entry only — what the
claim states — would emit nothing for this node. -/
theorem c7_counterexample_offset_zero_entry :
    emitSoupGo 0 [SoupInstr.soup [(0, 1)] 0] = ["m[h] += 1;"] ∧
    ((sortCellDeltas [((0 : Int), (1 : Int))]).filter (fun kd => kd.1 ≠ 0)).map
      (fun kd => emitLine 0 (soupStmt kd)) = [] := by
  constructor
  · simp only [emitSoupGo, sortCellDeltas, List.mergeSort_singleton, emitLine, tabs,
      soupStmt, hExpr]
    rfl
  · simp [sortCellDeltas, List.mergeSort_singleton]

/-- C7 as amended: for a Batch (`Soup`) node the code generator emits exactly
one `m[...] += delta;` statement per `cell_deltas` entry — including the
offset-0 entry (rendered `m[h]`) and zero-delta entries — with offsets in
ascending order, followed by exactly one `h += head_delta;` statement iff
`head_delta ≠ 0`, and no other statement for the node. -/
theorem c7_soup_batch_emission (ind : Nat) (cds : List (Int × Int)) (hd : Int)
    (rest : List SoupInstr) (hnd : (cds.map Prod.fst).Nodup) :
    emitSoupGo ind (.soup cds hd :: rest) =
      ((sortCellDeltas cds).map (fun kd => emitLine ind (soupStmt kd)) ++
        (if hd ≠ 0 then [emitLine ind ("h += " ++ toString hd ++ ";")] else [])) ++
        emitSoupGo ind rest ∧
    (sortCellDeltas cds).Perm cds ∧
    List.Chain' (· < ·) ((sortCellDeltas cds).map Prod.fst) := by
  refine ⟨?_, sortCellDeltas_perm cds, sortCellDeltas_chain_lt cds hnd⟩
  simp [emitSoupGo]

/-- Witness for the amended C7 at a concrete batch. -/
theorem c7_soup_batch_emission_witness :
    List.Chain' (· < ·) ((sortCellDeltas [((1 : Int), (2 : Int)), (0, 1)]).map Prod.fst) :=
  (c7_soup_batch_emission 0 [(1, 2), (0, 1)] 5 [] (by decide)).2.2

/-! ## Claim C9 -/

theorem VmMem.eq_of_fields {m1 m2 : VmMem}
    (h1 : m1.cell_vec = m2.cell_vec) (h2 : m1.head = m2.head)
    (h3 : m1.interact_with_user = m2.interact_with_user)
    (h4 : m1.input_stack = m2.input_stack) (h5 : m1.output_stack = m2.output_stack)
    (h6 : m1.stdin_pos = m2.stdin_pos) : m1 = m2 := by
  cases m1
  cases m2
  simp_all

theorem VmMem.cells_ext {m1 m2 : VmMem}
    (hlen : m1.cell_vec.length = m2.cell_vec.length)
    (hget : ∀ n, m1.get n = m2.get n) : m1.cell_vec = m2.cell_vec := by
  refine List.ext_getElem hlen ?_
  intro n h1' h2'
  have h := hget n
  rw [VmMem.get, VmMem.get, List.getD_eq_getElem?_getD, List.getD_eq_getElem?_getD,
    List.getElem?_eq_getElem h1', List.getElem?_eq_getElem h2'] at h
  simpa using h

theorem wrapCast8_eq (i : Int) : wrapCast8 i = (i % 256).toNat := by
  rw [wrapCast8, wrapCast]
  have h1 : (0 : Int) ≤ i % (U64 : Int) := Int.emod_nonneg i (by norm_num [U64])
  have h2 : (i % (U64 : Int)) % 256 = i % 256 :=
    Int.emod_emod_of_dvd i (by norm_num [U64])
  omega

/-- The elementary read-modify-write `m[i] := (m[i] + d) mod 256` that both
delta loops of `run_soup` perform at each entry. -/
def incr (m : VmMem) (i : Nat) (d : Int) : VmMem :=
  m.set i (wrapCast8 ((m.get i : Int) + d))

theorem incr_head (m : VmMem) (i : Nat) (d : Int) : (incr m i d).head = m.head := rfl

theorem incr_interact (m : VmMem) (i : Nat) (d : Int) :
    (incr m i d).interact_with_user = m.interact_with_user := rfl

theorem incr_input (m : VmMem) (i : Nat) (d : Int) :
    (incr m i d).input_stack = m.input_stack := rfl

theorem incr_output (m : VmMem) (i : Nat) (d : Int) :
    (incr m i d).output_stack = m.output_stack := rfl

theorem incr_stdin (m : VmMem) (i : Nat) (d : Int) :
    (incr m i d).stdin_pos = m.stdin_pos := rfl

theorem incr_get (m : VmMem) (i : Nat) (d : Int) (n : Nat) :
    (incr m i d).get n =
      if n = i then wrapCast8 ((m.get i : Int) + d) else m.get n :=
  VmMem.get_set m i _ n

theorem incr_length (m : VmMem) (i : Nat) (d : Int) :
    (incr m i d).cell_vec.length = max m.cell_vec.length (i + 1) :=
  VmMem.length_set m i _

theorem wrapCast8_wrapCast8 (a b : Int) :
    wrapCast8 ((wrapCast8 a : Int) + b) = wrapCast8 (a + b) := by
  rw [wrapCast8_eq, wrapCast8_eq, wrapCast8_eq]
  have ha : (0 : Int) ≤ a % 256 := Int.emod_nonneg a (by norm_num)
  rw [Int.toNat_of_nonneg ha, Int.add_emod, Int.emod_emod_of_dvd a (by norm_num),
    ← Int.add_emod]

/-- Two elementary increments commute, whether or not they hit the same
cell: same-cell updates are additions mod 256, distinct cells are
independent, and the zero-padding of the backing vector reaches the same
length either way. -/
theorem incr_comm (m : VmMem) (i j : Nat) (d1 d2 : Int) :
    incr (incr m i d1) j d2 = incr (incr m j d2) i d1 := by
  apply VmMem.eq_of_fields
  · apply VmMem.cells_ext
    · rw [incr_length, incr_length, incr_length, incr_length]
      omega
    · intro n
      simp only [incr_get]
      by_cases hni : n = i <;> by_cases hnj : n = j
      · subst hni
        subst hnj
        simp only [eq_self_iff_true, if_true]
        rw [wrapCast8_wrapCast8, wrapCast8_wrapCast8]
        congr 1
        ring
      · subst hni
        simp only [eq_self_iff_true, if_true, if_neg hnj, if_neg (Ne.symm hnj)]
      · subst hnj
        simp only [eq_self_iff_true, if_true, if_neg hni, if_neg (Ne.symm hni)]
      · simp only [if_neg hni, if_neg hnj]
  · rw [incr_head, incr_head, incr_head, incr_head]
  · rw [incr_interact, incr_interact, incr_interact, incr_interact]
  · rw [incr_input, incr_input, incr_input, incr_input]
  · rw [incr_output, incr_output, incr_output, incr_output]
  · rw [incr_stdin, incr_stdin, incr_stdin, incr_stdin]

theorem soupCellStep_eq_incr (m : VmMem) (kd : Int × Int) :
    soupCellStep m kd = incr m (wrapCast ((m.head : Int) + kd.1)) kd.2 := rfl

theorem multCellStep_eq_incr (n : Int) (m : VmMem) (kd : Int × Int) :
    multCellStep n m kd = incr m (wrapCast ((m.head : Int) + kd.1)) (kd.2 * n) := rfl

theorem soupCellStep_comm (m : VmMem) (e1 e2 : Int × Int) :
    soupCellStep (soupCellStep m e1) e2 = soupCellStep (soupCellStep m e2) e1 := by
  rw [soupCellStep_eq_incr, soupCellStep_eq_incr, soupCellStep_eq_incr,
    soupCellStep_eq_incr, incr_head, incr_head]
  exact incr_comm m _ _ e1.2 e2.2

theorem multCellStep_comm (n : Int) (m : VmMem) (e1 e2 : Int × Int) :
    multCellStep n (multCellStep n m e1) e2 = multCellStep n (multCellStep n m e2) e1 := by
  rw [multCellStep_eq_incr, multCellStep_eq_incr, multCellStep_eq_incr,
    multCellStep_eq_incr, incr_head, incr_head]
  exact incr_comm m _ _ _ _

/-- The `Soup` delta loop is insensitive to the iteration order of the
`HashMap` (distinct offsets address distinct cells, and same-cell updates
commute). -/
theorem applySoupDeltas_perm (m : VmMem) {cds cds' : List (Int × Int)}
    (h : cds.Perm cds') : applySoupDeltas m cds = applySoupDeltas m cds' :=
  h.foldl_eq' (fun x _ y _ z => soupCellStep_comm z x y) m

/-- Same for the `MultFixedLoop` delta loop. -/
theorem applyMultDeltas_perm (m : VmMem) (n : Int) {cds cds' : List (Int × Int)}
    (h : cds.Perm cds') : applyMultDeltas m cds n = applyMultDeltas m cds' n :=
  h.foldl_eq' (fun x _ y _ z => multCellStep_comm n z x y) m

/-- With pairwise-distinct keys, `lookup` is stable under permutation
(the HashMap's key uniqueness). -/
theorem lookup_perm_of_nodup {cds cds' : List (Int × Int)} (h : cds.Perm cds')
    (hnd : (cds.map Prod.fst).Nodup) (k : Int) :
    cds.lookup k = cds'.lookup k := by
  induction h with
  | nil => rfl
  | cons x h ih =>
    simp only [List.lookup]
    rcases hb : (k == x.1) with _ | _
    · simp only []
      refine ih ?_
      rw [List.map_cons] at hnd
      exact hnd.of_cons
    · rfl
  | swap x y l =>
    have hxy : y.1 ≠ x.1 := by
      rw [List.map_cons, List.map_cons] at hnd
      have h1 := (List.nodup_cons.mp hnd).1
      intro hc
      exact h1 (by rw [hc]; exact List.mem_cons_self _ _)
    simp only [List.lookup]
    rcases hb1 : (k == y.1) with _ | _ <;> rcases hb2 : (k == x.1) with _ | _ <;>
      simp only []
    exact absurd ((eq_of_beq hb1).symm.trans (eq_of_beq hb2)) hxy
  | trans h1 h2 ih1 ih2 =>
    exact (ih1 hnd).trans (ih2 (((h1.map Prod.fst).nodup_iff).mp hnd))

/-- Node-level permutation of `cell_deltas` entries: the same IR node up to
the order in which the `HashMap` yields its (distinct-keyed) entries. -/
inductive SoupPerm : SoupInstr → SoupInstr → Prop
  | soup {cds cds' : List (Int × Int)} {hd : Int} :
      cds.Perm cds' → SoupPerm (.soup cds hd) (.soup cds' hd)
  | output : SoupPerm .output .output
  | input : SoupPerm .input .input
  | mult {cds cds' : List (Int × Int)} :
      cds.Perm cds' → (cds.map Prod.fst).Nodup →
      SoupPerm (.multFixedLoop cds) (.multFixedLoop cds')
  | fixed {cds cds' : List (Int × Int)} :
      cds.Perm cds' → SoupPerm (.soupFixedLoop cds) (.soupFixedLoop cds')
  | moving {cds cds' : List (Int × Int)} {hd : Int} :
      cds.Perm cds' → SoupPerm (.soupMovingLoop cds hd) (.soupMovingLoop cds' hd)
  | loopRel {body body' : List SoupInstr} :
      List.Forall₂ SoupPerm body body' → SoupPerm (.loop body) (.loop body')

theorem forall₂_append_xx {R : SoupInstr → SoupInstr → Prop}
    {a a' b b' : List SoupInstr} (ha : List.Forall₂ R a a') (hb : List.Forall₂ R b b') :
    List.Forall₂ R (a ++ b) (a' ++ b') := by
  induction ha with
  | nil => exact hb
  | cons hx _ ih => exact List.Forall₂.cons hx ih

end XXBF

namespace XXBF

/-- Field-preservation facts used to carry the batch-mode flag through a
run. -/
theorem set_interact (m : VmMem) (k v : Nat) :
    (m.set k v).interact_with_user = m.interact_with_user := rfl

theorem outputCharValue_interact (m : VmMem) (v : Nat) :
    (m.outputCharValue v).interact_with_user = m.interact_with_user := rfl

theorem inputCharValue_interact (stdin : Nat → Nat) (m : VmMem) :
    (m.inputCharValue stdin).2.interact_with_user = m.interact_with_user := by
  rw [VmMem.inputCharValue]
  cases hh : m.input_stack with
  | nil => cases hb : m.interact_with_user <;> simp [hb]
  | cons x r => rfl

theorem applySoupDeltas_interact (m : VmMem) (cds : List (Int × Int)) :
    (applySoupDeltas m cds).interact_with_user = m.interact_with_user := by
  induction cds generalizing m with
  | nil => rfl
  | cons e rest ih =>
    rw [applySoupDeltas, List.foldl_cons]
    exact (ih (soupCellStep m e)).trans rfl

theorem applyMultDeltas_interact (m : VmMem) (cds : List (Int × Int)) (n : Int) :
    (applyMultDeltas m cds n).interact_with_user = m.interact_with_user := by
  induction cds generalizing m with
  | nil => rfl
  | cons e rest ih =>
    rw [applyMultDeltas, List.foldl_cons]
    exact (ih (multCellStep n m e)).trans rfl

/-- With buffered input exhausted only batch mode matters: the same
`input_char_value` result whatever the stdin stream, as long as the run is
not interactive. -/
theorem inputCharValue_stdin_eq (stdin1 stdin2 : Nat → Nat) (m : VmMem)
    (hm : m.interact_with_user = false) :
    m.inputCharValue stdin1 = m.inputCharValue stdin2 := by
  rw [VmMem.inputCharValue, VmMem.inputCharValue]
  cases hh : m.input_stack with
  | nil =>
    rw [hm]
    rfl
  | cons x r => rfl

/-- In batch mode the interactive stdin stream is never consulted by the raw
engine. -/
theorem runRawGo_stdin_irrelevant (stdin1 stdin2 : Nat → Nat) (fuel : Nat) :
    ∀ (p : List RawInstr) (m : VmMem), m.interact_with_user = false →
      runRawGo stdin1 fuel p m = runRawGo stdin2 fuel p m := by
  induction fuel with
  | zero =>
    intro p m _
    cases p <;> rfl
  | succ f ih =>
    intro p m hm
    cases p with
    | nil => rfl
    | cons i rest =>
      cases i with
      | plus => exact ih _ _ (by rw [set_interact]; exact hm)
      | minus => exact ih _ _ (by rw [set_interact]; exact hm)
      | left =>
        rw [runRawGo, runRawGo]
        split
        · rfl
        · exact ih _ _ hm
      | right =>
        rw [runRawGo, runRawGo]
        split
        · exact ih _ _ hm
        · rfl
      | output => exact ih _ _ (by rw [outputCharValue_interact]; exact hm)
      | input =>
        rw [runRawGo, runRawGo]
        rw [inputCharValue_stdin_eq stdin1 stdin2 m hm]
        exact ih _ _ (by rw [set_interact, inputCharValue_interact]; exact hm)
      | bracketLoop body =>
        rw [runRawGo, runRawGo]
        split
        · exact ih _ _ hm
        · exact ih _ _ hm

/-- In batch mode the IR engine ignores stdin and is invariant under
per-node permutation of `cell_deltas`. -/
theorem runSoupGo_perm (stdin1 stdin2 : Nat → Nat) (fuel : Nat) :
    ∀ (p p' : List SoupInstr) (m : VmMem), m.interact_with_user = false →
      List.Forall₂ SoupPerm p p' →
      runSoupGo stdin1 fuel p m = runSoupGo stdin2 fuel p' m := by
  induction fuel with
  | zero =>
    intro p p' m _ hpp
    cases hpp <;> rfl
  | succ f ih =>
    intro p p' m hm hpp
    cases hpp with
    | nil => rfl
    | cons hi hrest =>
      rename_i i i' rest rest'
      cases hi with
      | soup hperm =>
        rename_i cds cds' hd
        rw [runSoupGo, runSoupGo]
        simp only [applySoupDeltas_perm m hperm]
        exact ih _ _ _ (by rw [applySoupDeltas_interact]; exact hm) hrest
      | output =>
        exact ih _ _ _ (by rw [outputCharValue_interact]; exact hm) hrest
      | input =>
        rw [runSoupGo, runSoupGo]
        rw [inputCharValue_stdin_eq stdin1 stdin2 m hm]
        exact ih _ _ _ (by rw [set_interact, inputCharValue_interact]; exact hm) hrest
      | mult hperm hnd =>
        rename_i cds cds'
        rw [runSoupGo, runSoupGo]
        simp only [← lookup_perm_of_nodup hperm hnd 0]
        split
        · simp only [applyMultDeltas_perm m _ hperm]
          exact ih _ _ _ (by rw [set_interact, applyMultDeltas_interact]; exact hm) hrest
        · rfl
      | fixed hperm =>
        rename_i cds cds'
        rw [runSoupGo, runSoupGo]
        simp only [applySoupDeltas_perm m hperm]
        have hm1 : (applySoupDeltas m cds').interact_with_user = false := by
          rw [applySoupDeltas_interact]
          exact hm
        split
        · exact ih _ _ _ hm1 (List.Forall₂.cons (SoupPerm.fixed hperm) hrest)
        · exact ih _ _ _ hm1 hrest
      | moving hperm =>
        rename_i cds cds' hd
        rw [runSoupGo, runSoupGo]
        simp only [applySoupDeltas_perm m hperm]
        split
        · exact ih _ _ _ (by rw [applySoupDeltas_interact]; exact hm)
            (List.Forall₂.cons (SoupPerm.moving hperm) hrest)
        · exact ih _ _ _ (by rw [applySoupDeltas_interact]; exact hm) hrest
      | loopRel hbody =>
        rename_i body body'
        rw [runSoupGo, runSoupGo]
        split
        · exact ih _ _ _ hm
            (forall₂_append_xx hbody (List.Forall₂.cons (SoupPerm.loopRel hbody) hrest))
        · exact ih _ _ _ hm hrest

/-- C9: with an input buffer supplied (batch mode) both engines are
deterministic: the result — full final tape state and output sequence — does
not depend on the interactive stdin stream, and for the IR engine it is also
invariant under any per-node reordering of the `HashMap` `cell_deltas`
entries (distinct offsets address distinct cells). -/
theorem c9_batch_mode_deterministic :
    (∀ (stdin1 stdin2 : Nat → Nat) (fuel : Nat) (prog : List RawInstr) (buf : List Nat),
      run_raw stdin1 fuel prog (some buf) = run_raw stdin2 fuel prog (some buf)) ∧
    (∀ (stdin1 stdin2 : Nat → Nat) (fuel : Nat) (prog prog' : List SoupInstr)
        (buf : List Nat), List.Forall₂ SoupPerm prog prog' →
      run_soup stdin1 fuel prog (some buf) = run_soup stdin2 fuel prog' (some buf)) := by
  constructor
  · intro s1 s2 fuel prog buf
    exact runRawGo_stdin_irrelevant s1 s2 fuel prog _ rfl
  · intro s1 s2 fuel prog prog' buf hperm
    exact runSoupGo_perm s1 s2 fuel prog prog' _ rfl hperm

/-- Witness for C9 at a concrete program, buffer and two distinct stdin
streams. -/
theorem c9_batch_mode_deterministic_witness :
    run_raw (fun _ => 3) 9 [RawInstr.input, RawInstr.output] (some [65]) =
      run_raw (fun _ => 7) 9 [RawInstr.input, RawInstr.output] (some [65]) ∧
    run_soup (fun _ => 3) 9 [SoupInstr.soup [(0, 1), (2, 5)] 0] (some []) =
      run_soup (fun _ => 7) 9 [SoupInstr.soup [(2, 5), (0, 1)] 0] (some []) :=
  ⟨c9_batch_mode_deterministic.1 (fun _ => 3) (fun _ => 7) 9 _ _,
   c9_batch_mode_deterministic.2 (fun _ => 3) (fun _ => 7) 9 _ _ _
     (List.Forall₂.cons (SoupPerm.soup (by decide)) List.Forall₂.nil)⟩

/-! ## Claim C10 -/

/-- Opening positions of the still-open non-root scopes, innermost (top)
first. -/
def stackPositions (stack : List Scope) : List Nat :=
  stack.dropLast.map (fun s => s.opening_bracket_pos.getD 0)

/-- Invariant of the parser's scan loop: recorded error positions are
strictly increasing; open-scope positions strictly decrease top-down; every
recorded error position precedes every open scope's position; both precede
every still-unread position; and unread positions are strictly increasing. -/
structure ScanInv (stack : List Scope) (errors : List ParsingError)
    (l : List (Nat × Char)) : Prop where
  errSorted : List.Pairwise (· < ·) (errors.map ParsingError.pos)
  stkSorted : List.Pairwise (· > ·) (stackPositions stack)
  errStk : ∀ e ∈ errors.map ParsingError.pos, ∀ p ∈ stackPositions stack, e < p
  errFut : ∀ e ∈ errors.map ParsingError.pos, ∀ q ∈ l.map Prod.fst, e < q
  stkFut : ∀ p ∈ stackPositions stack, ∀ q ∈ l.map Prod.fst, p < q
  futSorted : List.Pairwise (· < ·) (l.map Prod.fst)

theorem stackPositions_pushTopInstr (stack : List Scope) (i : RawInstr) :
    stackPositions (pushTopInstr stack i) = stackPositions stack := by
  cases stack with
  | nil => rfl
  | cons s rest =>
    cases rest with
    | nil => rfl
    | cons t ts => rfl

theorem ScanInv.weaken {stack : List Scope} {errors : List ParsingError}
    {pc : Nat × Char} {rest : List (Nat × Char)}
    (h : ScanInv stack errors (pc :: rest)) : ScanInv stack errors rest where
  errSorted := h.errSorted
  stkSorted := h.stkSorted
  errStk := h.errStk
  errFut := fun e he q hq => h.errFut e he q (List.mem_cons_of_mem _ hq)
  stkFut := fun p hp q hq => h.stkFut p hp q (List.mem_cons_of_mem _ hq)
  futSorted := h.futSorted.of_cons

theorem ScanInv.push_instr {stack : List Scope} {errors : List ParsingError}
    {pc : Nat × Char} {rest : List (Nat × Char)} (i : RawInstr)
    (h : ScanInv stack errors (pc :: rest)) :
    ScanInv (pushTopInstr stack i) errors rest := by
  have h' := h.weaken
  exact {
    errSorted := h'.errSorted
    stkSorted := by rw [stackPositions_pushTopInstr]; exact h'.stkSorted
    errStk := by rw [stackPositions_pushTopInstr]; exact h'.errStk
    errFut := h'.errFut
    stkFut := by rw [stackPositions_pushTopInstr]; exact h'.stkFut
    futSorted := h'.futSorted }

theorem ScanInv.push_scope {stack : List Scope} {errors : List ParsingError}
    {pos : Nat} {c : Char} {rest : List (Nat × Char)}
    (h : ScanInv stack errors ((pos, c) :: rest)) :
    ScanInv (⟨some pos, []⟩ :: stack) errors rest := by
  have h' := h.weaken
  have hposfut : ∀ q ∈ rest.map Prod.fst, pos < q :=
    (List.pairwise_cons.mp h.futSorted).1
  cases stack with
  | nil =>
    exact {
      errSorted := h'.errSorted
      stkSorted := by simp [stackPositions]
      errStk := by simp [stackPositions]
      errFut := h'.errFut
      stkFut := by simp [stackPositions]
      futSorted := h'.futSorted }
  | cons t ts =>
    have hsp : stackPositions (⟨some pos, []⟩ :: t :: ts) =
        pos :: stackPositions (t :: ts) := rfl
    exact {
      errSorted := h'.errSorted
      stkSorted := by
        rw [hsp, List.pairwise_cons]
        exact ⟨fun p hp => h.stkFut p hp pos (List.mem_cons_self _ _), h'.stkSorted⟩
      errStk := by
        rw [hsp]
        intro e he p hp
        rcases List.mem_cons.mp hp with hp1 | hp2
        · rw [hp1]
          exact h.errFut e he pos (List.mem_cons_self _ _)
        · exact h'.errStk e he p hp2
      errFut := h'.errFut
      stkFut := by
        rw [hsp]
        intro p hp q hq
        rcases List.mem_cons.mp hp with hp1 | hp2
        · rw [hp1]
          exact hposfut q hq
        · exact h'.stkFut p hp2 q hq
      futSorted := h'.futSorted }

theorem ScanInv.pop_scope {s s2 : Scope} {stackRest : List Scope}
    {errors : List ParsingError} {pc : Nat × Char} {rest : List (Nat × Char)}
    (i : RawInstr) (h : ScanInv (s :: s2 :: stackRest) errors (pc :: rest)) :
    ScanInv (pushTopInstr (s2 :: stackRest) i) errors rest := by
  have hsp : stackPositions (s :: s2 :: stackRest) =
      s.opening_bracket_pos.getD 0 :: stackPositions (s2 :: stackRest) := rfl
  have h2 : ScanInv (s2 :: stackRest) errors (pc :: rest) := {
    errSorted := h.errSorted
    stkSorted := by
      have := h.stkSorted
      rw [hsp] at this
      exact this.of_cons
    errStk := fun e he p hp => h.errStk e he p (by rw [hsp]; exact List.mem_cons_of_mem _ hp)
    errFut := h.errFut
    stkFut := fun p hp q hq => h.stkFut p (by rw [hsp]; exact List.mem_cons_of_mem _ hp) q hq
    futSorted := h.futSorted }
  exact h2.push_instr i

theorem ScanInv.add_close_err {stack : List Scope} {errors : List ParsingError}
    {pos : Nat} {c : Char} {rest : List (Nat × Char)}
    (hsp : stackPositions stack = [])
    (h : ScanInv stack errors ((pos, c) :: rest)) :
    ScanInv stack (errors ++ [.unmatchedClosingBracket pos]) rest := by
  have h' := h.weaken
  have hposfut : ∀ q ∈ rest.map Prod.fst, pos < q :=
    (List.pairwise_cons.mp h.futSorted).1
  exact {
    errSorted := by
      rw [List.map_append, List.pairwise_append]
      refine ⟨h'.errSorted, by simp, ?_⟩
      intro a ha b hb
      simp only [List.map_cons, List.map_nil, List.mem_singleton] at hb
      rw [hb]
      exact h.errFut a ha pos (List.mem_cons_self _ _)
    stkSorted := h'.stkSorted
    errStk := by
      rw [hsp]
      intro e _ p hp
      exact absurd hp (List.not_mem_nil p)
    errFut := by
      rw [List.map_append]
      intro e he q hq
      rcases List.mem_append.mp he with he1 | he2
      · exact h'.errFut e he1 q hq
      · simp only [List.map_cons, List.map_nil, List.mem_singleton] at he2
        rw [he2]
        exact hposfut q hq
    stkFut := h'.stkFut
    futSorted := h'.futSorted }

theorem parseGo_inv (l : List (Nat × Char)) :
    ∀ (stack : List Scope) (errors : List ParsingError), ScanInv stack errors l →
      ScanInv (parseGo l stack errors).1 (parseGo l stack errors).2 [] := by
  induction l with
  | nil =>
    intro stack errors h
    exact h
  | cons pc rest ih =>
    obtain ⟨pos, c⟩ := pc
    intro stack errors h
    rcases stack with _ | ⟨s, ts⟩
    · rw [parseGo]
      split_ifs with h1 h2 h3 h4 h5 h6 h7 h8
      · exact ih _ _ (h.push_instr _)
      · exact ih _ _ (h.push_instr _)
      · exact ih _ _ (h.push_instr _)
      · exact ih _ _ (h.push_instr _)
      · exact ih _ _ (h.push_instr _)
      · exact ih _ _ (h.push_instr _)
      · exact ih _ _ h.push_scope
      · exact ih _ _ (h.add_close_err rfl)
      · exact ih _ _ h.weaken
      · intro a b cc hc
        simp at hc
    · rcases ts with _ | ⟨s2, ts2⟩
      · rw [parseGo]
        split_ifs with h1 h2 h3 h4 h5 h6 h7 h8
        · exact ih _ _ (h.push_instr _)
        · exact ih _ _ (h.push_instr _)
        · exact ih _ _ (h.push_instr _)
        · exact ih _ _ (h.push_instr _)
        · exact ih _ _ (h.push_instr _)
        · exact ih _ _ (h.push_instr _)
        · exact ih _ _ h.push_scope
        · exact ih _ _ (h.add_close_err rfl)
        · exact ih _ _ h.weaken
        · intro a b cc hc
          simp at hc
      · rw [parseGo]
        split_ifs with h1 h2 h3 h4 h5 h6 h7 h8
        · exact ih _ _ (h.push_instr _)
        · exact ih _ _ (h.push_instr _)
        · exact ih _ _ (h.push_instr _)
        · exact ih _ _ (h.push_instr _)
        · exact ih _ _ (h.push_instr _)
        · exact ih _ _ (h.push_instr _)
        · exact ih _ _ h.push_scope
        · exact ih _ _ (ScanInv.pop_scope _ h)
        · exact ih _ _ h.weaken

/-- C10: whenever parsing fails, the entire returned error list — closing-
and opening-bracket entries together — is strictly increasing in source
offset. -/
theorem c10_parse_error_list_sorted (src : List Char) (errs : List ParsingError)
    (h : parse_instr_seq src = .error errs) :
    List.Chain' (· < ·) (errs.map ParsingError.pos) := by
  have hinv0 : ScanInv [⟨none, []⟩] [] src.enum := {
    errSorted := by simp
    stkSorted := by simp [stackPositions]
    errStk := by simp
    errFut := by simp
    stkFut := by simp [stackPositions]
    futSorted := by rw [List.enum_map_fst]; exact List.pairwise_lt_range _ }
  have hinv := parseGo_inv src.enum _ _ hinv0
  simp only [parse_instr_seq] at h
  split at h
  · exact absurd h (by simp)
  · injection h with hh
    refine List.Pairwise.chain' ?_
    rw [← hh, List.map_append, List.pairwise_append]
    have hopenpos : ((parseGo src.enum [⟨none, []⟩] []).1.dropLast.reverse.map
        (fun s => ParsingError.unmatchedOpeningBracket (s.opening_bracket_pos.getD 0))).map
          ParsingError.pos =
        (stackPositions (parseGo src.enum [⟨none, []⟩] []).1).reverse := by
      rw [stackPositions, ← List.map_reverse, List.map_map]
      rfl
    rw [hopenpos]
    refine ⟨hinv.errSorted, ?_, ?_⟩
    · rw [List.pairwise_reverse]
      exact hinv.stkSorted
    · intro a ha b hb
      exact hinv.errStk a ha b (List.mem_reverse.mp hb)

/-- Witness for C10 at the concrete failing source `]+[`. -/
theorem c10_parse_error_list_sorted_witness :
    List.Chain' (· < ·) ([ParsingError.unmatchedClosingBracket 0,
      ParsingError.unmatchedOpeningBracket 2].map ParsingError.pos) :=
  c10_parse_error_list_sorted [']', '+', '['] _ rfl

/-! ## Claim C2

For a loop whose body soupifies to a single batch with `head_delta = 0` and
offset-0 delta `-1`, the one-shot `MultFixedLoop` execution agrees with the
naive raw-engine execution of the loop, for any starting head-cell value.
The proof goes through an explicit description of straight-line execution:
`Describes m0 c hd m` says that `m` is `m0` with each cell at offset `k`
(for the distinct keys `k` of `c`) shifted by `lookupD c k` mod 256 and the
head shifted by `hd`. -/

/-- Primitive instructions (no I/O, no loop). -/
def isPrim : RawInstr → Bool
  | .plus => true
  | .minus => true
  | .left => true
  | .right => true
  | _ => false

/-- Accumulation of one primitive into a batch, at the level of
`(cell_deltas, head_delta)` pairs (the four mutation arms of `soupify`). -/
def batchAcc : List (Int × Int) × Int → RawInstr → List (Int × Int) × Int
  | (c, h), .plus => (updateEntry c h 1, h)
  | (c, h), .minus => (updateEntry c h (-1), h)
  | (c, h), .left => (c, h - 1)
  | (c, h), .right => (c, h + 1)
  | (c, h), _ => (c, h)

theorem primApply_eq_batchAcc (c : List (Int × Int)) (h : Int) (i : RawInstr)
    (hi : isPrim i = true) :
    primApply c h i = .soup (batchAcc (c, h) i).1 (batchAcc (c, h) i).2 := by
  cases i <;> simp_all [isPrim, primApply, batchAcc]

theorem lookupD_nil (k : Int) : lookupD [] k = 0 := rfl

theorem lookupD_cons (e : Int × Int) (c : List (Int × Int)) (k : Int) :
    lookupD (e :: c) k = if k = e.1 then e.2 else lookupD c k := by
  rcases e with ⟨ek, ev⟩
  simp only [lookupD, List.lookup]
  rcases hb : (k == ek) with _ | _
  · rw [if_neg (by simpa using hb)]
  · rw [if_pos (by simpa using hb)]
    rfl

theorem lookupD_updateEntry (c : List (Int × Int)) (h k d : Int) :
    lookupD (updateEntry c h d) k = lookupD c k + (if k = h then d else 0) := by
  induction c with
  | nil =>
    simp only [updateEntry, lookupD_cons, lookupD_nil]
    split_ifs <;> omega
  | cons e c' ih =>
    rcases e with ⟨ek, ev⟩
    rw [updateEntry]
    split <;> rename_i hek
    · simp only [lookupD_cons]
      split_ifs <;> omega
    · simp only [lookupD_cons, ih]
      split_ifs <;> omega

theorem updateEntry_keys (c : List (Int × Int)) (h d k : Int)
    (hk : k ∈ (updateEntry c h d).map Prod.fst) :
    k ∈ c.map Prod.fst ∨ k = h := by
  induction c with
  | nil =>
    rw [updateEntry] at hk
    simp at hk
    exact Or.inr hk
  | cons e c' ih =>
    rw [updateEntry] at hk
    split at hk <;> rename_i hek
    · simp only [List.map_cons, List.mem_cons] at hk ⊢
      rcases hk with hk1 | hk2
      · exact Or.inl (Or.inl hk1)
      · exact Or.inl (Or.inr hk2)
    · simp only [List.map_cons, List.mem_cons] at hk ⊢
      rcases hk with hk1 | hk2
      · exact Or.inl (Or.inl hk1)
      · rcases ih hk2 with hh | hh
        · exact Or.inl (Or.inr hh)
        · exact Or.inr hh

theorem updateEntry_nodup (c : List (Int × Int)) (h d : Int)
    (hnd : (c.map Prod.fst).Nodup) : ((updateEntry c h d).map Prod.fst).Nodup := by
  induction c with
  | nil =>
    rw [updateEntry]
    simp
  | cons e c' ih =>
    rw [updateEntry]
    split <;> rename_i hek
    · exact hnd
    · rw [List.map_cons] at hnd ⊢
      rw [List.nodup_cons] at hnd ⊢
      refine ⟨?_, ih hnd.2⟩
      intro hmem
      rcases updateEntry_keys c' h d e.1 hmem with hh | hh
      · exact hnd.1 hh
      · exact hek hh

theorem batchAcc_fold_nodup (b : List RawInstr) :
    ∀ (c : List (Int × Int)) (h : Int), (c.map Prod.fst).Nodup →
      (((b.foldl batchAcc (c, h)).1).map Prod.fst).Nodup := by
  induction b with
  | nil =>
    intro c h hnd
    exact hnd
  | cons i rest ih =>
    intro c h hnd
    rw [List.foldl_cons]
    cases i with
    | plus => exact ih _ _ (updateEntry_nodup c h _ hnd)
    | minus => exact ih _ _ (updateEntry_nodup c h _ hnd)
    | left => exact ih _ _ hnd
    | right => exact ih _ _ hnd
    | output => exact ih _ _ hnd
    | input => exact ih _ _ hnd
    | bracketLoop body => exact ih _ _ hnd

/-- `cell_deltas` scaled by an iteration count. -/
def scaleList (c : List (Int × Int)) (u : Nat) : List (Int × Int) :=
  c.map (fun kd => (kd.1, kd.2 * (u : Int)))

theorem scaleList_keys (c : List (Int × Int)) (u : Nat) :
    (scaleList c u).map Prod.fst = c.map Prod.fst := by
  rw [scaleList, List.map_map]
  rfl

theorem lookupD_scaleList (c : List (Int × Int)) (u : Nat) (k : Int) :
    lookupD (scaleList c u) k = lookupD c k * (u : Int) := by
  induction c with
  | nil => simp [scaleList, lookupD_nil]
  | cons e c' ih =>
    rw [scaleList, List.map_cons, lookupD_cons, ← scaleList, ih, lookupD_cons]
    rcases eq_or_ne k e.1 with hk | hk
    · rw [if_pos hk, if_pos hk]
    · rw [if_neg hk, if_neg hk]

theorem scaleList_one (c : List (Int × Int)) : scaleList c 1 = c := by
  rw [scaleList]
  simp

theorem wrapCast_of_bounds (i : Int) (h0 : 0 ≤ i) (h1 : i < (U64 : Int)) :
    wrapCast i = i.toNat := by
  rw [wrapCast, Int.emod_eq_of_lt h0 h1]

theorem VmWf_get_lt (m : VmMem) (hwf : ∀ v ∈ m.cell_vec, v < 256) (j : Nat) :
    m.get j < 256 := by
  rw [VmMem.get, List.getD_eq_getElem?_getD]
  rcases hj : m.cell_vec[j]? with _ | v
  · simp
  · have hv : v ∈ m.cell_vec := by
      rcases List.getElem?_eq_some_iff.mp hj with ⟨hlt, hval⟩
      exact hval ▸ List.getElem_mem hlt
    simpa using hwf v hv

/-- State description for straight-line batch execution: `m` is `m0` with
each cell at relative offset `k` shifted by `lookupD c k` mod 256 and the
head shifted by `hd`; every key of `c` denotes a cell position actually
visited, hence in `[0, 2^64)`. -/
structure Describes (m0 : VmMem) (c : List (Int × Int)) (hd : Int) (m : VmMem) : Prop where
  headEq : (m.head : Int) = (m0.head : Int) + hd
  headLt : m.head < U64
  cells : ∀ j : Nat, (m.get j : Int) =
    ((m0.get j : Int) + lookupD c ((j : Int) - (m0.head : Int))) % 256
  keysOk : ∀ k ∈ c.map Prod.fst,
    0 ≤ (m0.head : Int) + k ∧ (m0.head : Int) + k < (U64 : Int)
  interactEq : m.interact_with_user = m0.interact_with_user
  inputEq : m.input_stack = m0.input_stack
  outputEq : m.output_stack = m0.output_stack
  stdinEq : m.stdin_pos = m0.stdin_pos

theorem describes_init (m : VmMem) (hlt : ∀ j, m.get j < 256) (hh : m.head < U64) :
    Describes m [] 0 m where
  headEq := by omega
  headLt := hh
  cells := fun j => by
    rw [lookupD_nil]
    have := hlt j
    omega
  keysOk := by simp
  interactEq := rfl
  inputEq := rfl
  outputEq := rfl
  stdinEq := rfl

theorem describes_get_lt {m0 : VmMem} {c : List (Int × Int)} {hd : Int} {m : VmMem}
    (h : Describes m0 c hd m) (j : Nat) : m.get j < 256 := by
  have hc := h.cells j
  have hnn : (0 : Int) ≤ ((m0.get j : Int) + lookupD c ((j : Int) - (m0.head : Int))) % 256 :=
    Int.emod_nonneg _ (by norm_num)
  have hlt : ((m0.get j : Int) + lookupD c ((j : Int) - (m0.head : Int))) % 256 < 256 :=
    Int.emod_lt_of_pos _ (by norm_num)
  omega

theorem set_input (m : VmMem) (k v : Nat) : (m.set k v).input_stack = m.input_stack := rfl

theorem set_output (m : VmMem) (k v : Nat) : (m.set k v).output_stack = m.output_stack := rfl

theorem set_stdin (m : VmMem) (k v : Nat) : (m.set k v).stdin_pos = m.stdin_pos := rfl

theorem describes_step_plus {m0 : VmMem} {c : List (Int × Int)} {hd : Int} {m : VmMem}
    (h : Describes m0 c hd m) :
    Describes m0 (updateEntry c hd 1) hd (m.set m.head ((m.get m.head + 1) % 256)) where
  headEq := by rw [VmMem.head_set]; exact h.headEq
  headLt := by rw [VmMem.head_set]; exact h.headLt
  cells := fun j => by
    rw [VmMem.get_set, lookupD_updateEntry]
    have hhe := h.headEq
    rcases eq_or_ne j m.head with hj | hj
    · subst hj
      have hoff : ((m.head : Nat) : Int) - (m0.head : Int) = hd := by omega
      rw [if_pos rfl, hoff, if_pos rfl]
      have hc := h.cells m.head
      rw [hoff] at hc
      push_cast
      omega
    · rw [if_neg hj]
      have hoffne : (j : Int) - (m0.head : Int) ≠ hd := by omega
      rw [if_neg hoffne]
      have hc := h.cells j
      omega
  keysOk := fun k hk => by
    rcases updateEntry_keys c hd 1 k hk with hold | hnew
    · exact h.keysOk k hold
    · subst hnew
      have hhe := h.headEq
      have hlt := h.headLt
      constructor <;> omega
  interactEq := by rw [set_interact]; exact h.interactEq
  inputEq := by rw [set_input]; exact h.inputEq
  outputEq := by rw [set_output]; exact h.outputEq
  stdinEq := by rw [set_stdin]; exact h.stdinEq

theorem describes_step_minus {m0 : VmMem} {c : List (Int × Int)} {hd : Int} {m : VmMem}
    (h : Describes m0 c hd m) :
    Describes m0 (updateEntry c hd (-1)) hd (m.set m.head ((m.get m.head + 255) % 256)) where
  headEq := by rw [VmMem.head_set]; exact h.headEq
  headLt := by rw [VmMem.head_set]; exact h.headLt
  cells := fun j => by
    rw [VmMem.get_set, lookupD_updateEntry]
    have hhe := h.headEq
    rcases eq_or_ne j m.head with hj | hj
    · subst hj
      have hoff : ((m.head : Nat) : Int) - (m0.head : Int) = hd := by omega
      rw [if_pos rfl, hoff, if_pos rfl]
      have hc := h.cells m.head
      rw [hoff] at hc
      push_cast
      omega
    · rw [if_neg hj]
      have hoffne : (j : Int) - (m0.head : Int) ≠ hd := by omega
      rw [if_neg hoffne]
      have hc := h.cells j
      omega
  keysOk := fun k hk => by
    rcases updateEntry_keys c hd (-1) k hk with hold | hnew
    · exact h.keysOk k hold
    · subst hnew
      have hhe := h.headEq
      have hlt := h.headLt
      constructor <;> omega
  interactEq := by rw [set_interact]; exact h.interactEq
  inputEq := by rw [set_input]; exact h.inputEq
  outputEq := by rw [set_output]; exact h.outputEq
  stdinEq := by rw [set_stdin]; exact h.stdinEq

theorem describes_step_left {m0 : VmMem} {c : List (Int × Int)} {hd : Int} {m : VmMem}
    (h : Describes m0 c hd m) (hne : ¬m.head = 0) :
    Describes m0 c (hd - 1) { m with head := m.head - 1 } where
  headEq := by
    have hhe := h.headEq
    show ((m.head - 1 : Nat) : Int) = _
    omega
  headLt := by
    have := h.headLt
    show m.head - 1 < U64
    omega
  cells := h.cells
  keysOk := h.keysOk
  interactEq := h.interactEq
  inputEq := h.inputEq
  outputEq := h.outputEq
  stdinEq := h.stdinEq

theorem describes_step_right {m0 : VmMem} {c : List (Int × Int)} {hd : Int} {m : VmMem}
    (h : Describes m0 c hd m) (hlt : m.head + 1 < U64) :
    Describes m0 c (hd + 1) { m with head := m.head + 1 } where
  headEq := by
    have hhe := h.headEq
    show ((m.head + 1 : Nat) : Int) = _
    omega
  headLt := hlt
  cells := h.cells
  keysOk := h.keysOk
  interactEq := h.interactEq
  inputEq := h.inputEq
  outputEq := h.outputEq
  stdinEq := h.stdinEq

/-- Straight-line segment lemma: successfully running a primitive-only raw
sequence refines the accumulated batch description. -/
theorem seg_describes (stdin : Nat → Nat) {m0 : VmMem} :
    ∀ (b : List RawInstr), (∀ i ∈ b, isPrim i = true) →
    ∀ (fuel : Nat) (c : List (Int × Int)) (hd : Int) (m m' : VmMem),
      Describes m0 c hd m → runRawGo stdin fuel b m = .ok m' →
      Describes m0 (b.foldl batchAcc (c, hd)).1 (b.foldl batchAcc (c, hd)).2 m' := by
  intro b
  induction b with
  | nil =>
    intro _ fuel c hd m m' hdesc hrun
    rw [runRawGo] at hrun
    injection hrun with hh
    rw [← hh]
    exact hdesc
  | cons i rest ih =>
    intro hb fuel c hd m m' hdesc hrun
    have hi : isPrim i = true := hb i (List.mem_cons_self _ _)
    have hrest : ∀ x ∈ rest, isPrim x = true := fun x hx => hb x (List.mem_cons_of_mem _ hx)
    cases fuel with
    | zero => simp [runRawGo] at hrun
    | succ f =>
      cases i with
      | plus =>
        rw [runRawGo] at hrun
        rw [List.foldl_cons]
        exact ih hrest f _ _ _ _ (describes_step_plus hdesc) hrun
      | minus =>
        rw [runRawGo] at hrun
        rw [List.foldl_cons]
        exact ih hrest f _ _ _ _ (describes_step_minus hdesc) hrun
      | left =>
        rw [runRawGo] at hrun
        split at hrun
        · simp at hrun
        · rename_i hh0
          rw [List.foldl_cons]
          exact ih hrest f _ _ _ _ (describes_step_left hdesc hh0) hrun
      | right =>
        rw [runRawGo] at hrun
        split at hrun
        · rename_i hhlt
          rw [List.foldl_cons]
          exact ih hrest f _ _ _ _ (describes_step_right hdesc hhlt) hrun
        · simp at hrun
      | output => simp [isPrim] at hi
      | input => simp [isPrim] at hi
      | bracketLoop body => simp [isPrim] at hi

/-- The stack machine runs a prefix of its stack to completion before
touching what lies beneath: a successful run of `a ++ rest` factors into a
run of `a` and a run of `rest`. -/
theorem runRawGo_split (stdin : Nat → Nat) :
    ∀ (fuel : Nat) (a rest : List RawInstr) (m m' : VmMem),
      runRawGo stdin fuel (a ++ rest) m = .ok m' →
      ∃ f1 f2 mid, f1 + f2 ≤ fuel ∧ runRawGo stdin f1 a m = .ok mid ∧
        runRawGo stdin f2 rest mid = .ok m' := by
  intro fuel
  induction fuel using Nat.strong_induction_on with
  | _ fuel ih =>
    intro a rest m m' hrun
    cases a with
    | nil => exact ⟨0, fuel, m, by omega, rfl, hrun⟩
    | cons i a' =>
      cases fuel with
      | zero => simp [runRawGo] at hrun
      | succ f =>
        cases i with
        | plus =>
          rw [List.cons_append, runRawGo] at hrun
          obtain ⟨f1, f2, mid, hle, h1, h2⟩ := ih f (by omega) a' rest _ m' hrun
          exact ⟨f1 + 1, f2, mid, by omega, by rw [runRawGo]; exact h1, h2⟩
        | minus =>
          rw [List.cons_append, runRawGo] at hrun
          obtain ⟨f1, f2, mid, hle, h1, h2⟩ := ih f (by omega) a' rest _ m' hrun
          exact ⟨f1 + 1, f2, mid, by omega, by rw [runRawGo]; exact h1, h2⟩
        | left =>
          rw [List.cons_append, runRawGo] at hrun
          split at hrun
          · simp at hrun
          · rename_i hh
            obtain ⟨f1, f2, mid, hle, h1, h2⟩ := ih f (by omega) a' rest _ m' hrun
            exact ⟨f1 + 1, f2, mid, by omega, by rw [runRawGo, if_neg hh]; exact h1, h2⟩
        | right =>
          rw [List.cons_append, runRawGo] at hrun
          split at hrun
          · rename_i hh
            obtain ⟨f1, f2, mid, hle, h1, h2⟩ := ih f (by omega) a' rest _ m' hrun
            exact ⟨f1 + 1, f2, mid, by omega, by rw [runRawGo, if_pos hh]; exact h1, h2⟩
          · simp at hrun
        | output =>
          rw [List.cons_append, runRawGo] at hrun
          obtain ⟨f1, f2, mid, hle, h1, h2⟩ := ih f (by omega) a' rest _ m' hrun
          exact ⟨f1 + 1, f2, mid, by omega, by rw [runRawGo]; exact h1, h2⟩
        | input =>
          rw [List.cons_append, runRawGo] at hrun
          obtain ⟨f1, f2, mid, hle, h1, h2⟩ := ih f (by omega) a' rest _ m' hrun
          exact ⟨f1 + 1, f2, mid, by omega, by rw [runRawGo]; exact h1, h2⟩
        | bracketLoop body =>
          rw [List.cons_append, runRawGo] at hrun
          split at hrun
          · rename_i hcond
            rw [show body ++ RawInstr.bracketLoop body :: (a' ++ rest) =
                (body ++ RawInstr.bracketLoop body :: a') ++ rest by simp] at hrun
            obtain ⟨f1, f2, mid, hle, h1, h2⟩ := ih f (by omega) _ rest _ m' hrun
            exact ⟨f1 + 1, f2, mid, by omega, by rw [runRawGo, if_pos hcond]; exact h1, h2⟩
          · rename_i hcond
            obtain ⟨f1, f2, mid, hle, h1, h2⟩ := ih f (by omega) a' rest _ m' hrun
            exact ⟨f1 + 1, f2, mid, by omega, by rw [runRawGo, if_neg hcond]; exact h1, h2⟩

/-- Batch (`Soup`) nodes of the IR. -/
def isSoupNode : SoupInstr → Bool
  | .soup _ _ => true
  | _ => false

theorem classify_not_soup (body : List SoupInstr) : isSoupNode (classify body) = false := by
  cases body with
  | nil => rfl
  | cons b1 brest =>
    cases brest with
    | nil =>
      cases b1 with
      | soup cds hd =>
        rw [classify]
        split_ifs <;> rfl
      | output => rfl
      | input => rfl
      | multFixedLoop c => rfl
      | soupFixedLoop c => rfl
      | soupMovingLoop c h => rfl
      | loop bb => rfl
    | cons b2 brest2 =>
      cases b1 with
      | soup cds hd => rfl
      | output => rfl
      | input => rfl
      | multFixedLoop c => rfl
      | soupFixedLoop c => rfl
      | soupMovingLoop c h => rfl
      | loop bb => rfl

theorem primStep_append (a t : List SoupInstr) (ha : a ≠ []) (i : RawInstr) :
    primStep (a ++ t) i = primStep a i ++ t := by
  cases a with
  | nil => exact absurd rfl ha
  | cons x a' => cases x <;> rfl

theorem primStep_ne_nil (a : List SoupInstr) (i : RawInstr) : primStep a i ≠ [] := by
  cases a with
  | nil => simp [primStep]
  | cons x a' => cases x <;> simp [primStep]

/-- The builder touches only the head of its accumulator (or prepends), so a
nonempty accumulator prefix evolves independently of what lies beneath. -/
theorem soupifyGo_append_acc : ∀ (l : List RawInstr) (a t : List SoupInstr), a ≠ [] →
    soupifyGo l (a ++ t) = soupifyGo l a ++ t := by
  intro l
  induction l with
  | nil =>
    intro a t _
    rw [soupifyGo, soupifyGo]
  | cons i rest ih =>
    intro a t ha
    cases i with
    | plus =>
      simp only [soupifyGo]
      rw [primStep_append a t ha]
      exact ih _ t (primStep_ne_nil a _)
    | minus =>
      simp only [soupifyGo]
      rw [primStep_append a t ha]
      exact ih _ t (primStep_ne_nil a _)
    | left =>
      simp only [soupifyGo]
      rw [primStep_append a t ha]
      exact ih _ t (primStep_ne_nil a _)
    | right =>
      simp only [soupifyGo]
      rw [primStep_append a t ha]
      exact ih _ t (primStep_ne_nil a _)
    | output =>
      simp only [soupifyGo]
      rw [show SoupInstr.output :: (a ++ t) = (SoupInstr.output :: a) ++ t from rfl]
      exact ih _ t (by simp)
    | input =>
      simp only [soupifyGo]
      rw [show SoupInstr.input :: (a ++ t) = (SoupInstr.input :: a) ++ t from rfl]
      exact ih _ t (by simp)
    | bracketLoop body =>
      simp only [soupifyGo]
      rw [show classify (soupifyGo body []).reverse :: (a ++ t) =
        (classify (soupifyGo body []).reverse :: a) ++ t from rfl]
      exact ih _ t (by simp)

theorem soupifyGo_ne_nil : ∀ (l : List RawInstr) (a : List SoupInstr), a ≠ [] →
    soupifyGo l a ≠ [] := by
  intro l
  induction l with
  | nil =>
    intro a ha
    rw [soupifyGo]
    exact ha
  | cons i rest ih =>
    intro a ha
    cases i with
    | plus => rw [soupifyGo]; exact ih _ (primStep_ne_nil a _)
    | minus => rw [soupifyGo]; exact ih _ (primStep_ne_nil a _)
    | left => rw [soupifyGo]; exact ih _ (primStep_ne_nil a _)
    | right => rw [soupifyGo]; exact ih _ (primStep_ne_nil a _)
    | output => rw [soupifyGo]; exact ih _ (by simp)
    | input => rw [soupifyGo]; exact ih _ (by simp)
    | bracketLoop body => rw [soupifyGo]; exact ih _ (by simp)

/-- A run of the builder over a single batch that results in a single batch
consists of primitives only, folded by `batchAcc`. -/
theorem soupifyGo_single_soup : ∀ (rest : List RawInstr) (c : List (Int × Int)) (h : Int)
    (cds : List (Int × Int)) (hd : Int),
    soupifyGo rest [.soup c h] = [.soup cds hd] →
    (∀ i ∈ rest, isPrim i = true) ∧ rest.foldl batchAcc (c, h) = (cds, hd) := by
  intro rest
  induction rest with
  | nil =>
    intro c h cds hd hyp
    rw [soupifyGo] at hyp
    simp only [List.cons.injEq, SoupInstr.soup.injEq, and_true] at hyp
    refine ⟨by simp, ?_⟩
    rw [List.foldl_nil, hyp.1, hyp.2]
  | cons i rest' ih =>
    intro c h cds hd hyp
    cases i with
    | plus =>
      rw [soupifyGo] at hyp
      obtain ⟨hp, hf⟩ := ih _ _ _ _ hyp
      refine ⟨?_, by rw [List.foldl_cons]; exact hf⟩
      intro x hx
      rcases List.mem_cons.mp hx with hx1 | hx2
      · rw [hx1]; rfl
      · exact hp x hx2
    | minus =>
      rw [soupifyGo] at hyp
      obtain ⟨hp, hf⟩ := ih _ _ _ _ hyp
      refine ⟨?_, by rw [List.foldl_cons]; exact hf⟩
      intro x hx
      rcases List.mem_cons.mp hx with hx1 | hx2
      · rw [hx1]; rfl
      · exact hp x hx2
    | left =>
      rw [soupifyGo] at hyp
      obtain ⟨hp, hf⟩ := ih _ _ _ _ hyp
      refine ⟨?_, by rw [List.foldl_cons]; exact hf⟩
      intro x hx
      rcases List.mem_cons.mp hx with hx1 | hx2
      · rw [hx1]; rfl
      · exact hp x hx2
    | right =>
      rw [soupifyGo] at hyp
      obtain ⟨hp, hf⟩ := ih _ _ _ _ hyp
      refine ⟨?_, by rw [List.foldl_cons]; exact hf⟩
      intro x hx
      rcases List.mem_cons.mp hx with hx1 | hx2
      · rw [hx1]; rfl
      · exact hp x hx2
    | output =>
      rw [soupifyGo] at hyp
      rw [show SoupInstr.output :: [SoupInstr.soup c h] =
        [SoupInstr.output] ++ [SoupInstr.soup c h] from rfl,
        soupifyGo_append_acc rest' [SoupInstr.output] _ (by simp)] at hyp
      exfalso
      cases hpre : soupifyGo rest' [SoupInstr.output] with
      | nil => exact soupifyGo_ne_nil rest' [SoupInstr.output] (by simp) hpre
      | cons y pre' =>
        rw [hpre] at hyp
        simp at hyp
    | input =>
      rw [soupifyGo] at hyp
      rw [show SoupInstr.input :: [SoupInstr.soup c h] =
        [SoupInstr.input] ++ [SoupInstr.soup c h] from rfl,
        soupifyGo_append_acc rest' [SoupInstr.input] _ (by simp)] at hyp
      exfalso
      cases hpre : soupifyGo rest' [SoupInstr.input] with
      | nil => exact soupifyGo_ne_nil rest' [SoupInstr.input] (by simp) hpre
      | cons y pre' =>
        rw [hpre] at hyp
        simp at hyp
    | bracketLoop body =>
      rw [soupifyGo] at hyp
      rw [show classify (soupifyGo body []).reverse :: [SoupInstr.soup c h] =
        [classify (soupifyGo body []).reverse] ++ [SoupInstr.soup c h] from rfl,
        soupifyGo_append_acc rest' [classify (soupifyGo body []).reverse] _ (by simp)] at hyp
      exfalso
      cases hpre : soupifyGo rest' [classify (soupifyGo body []).reverse] with
      | nil => exact soupifyGo_ne_nil rest' _ (by simp) hpre
      | cons y pre' =>
        rw [hpre] at hyp
        simp at hyp

/-- Starting from a non-batch bottom node, the builder can never produce a
single batch. -/
theorem soupifyGo_non_soup_bottom (l : List RawInstr) (y : SoupInstr)
    (hy : isSoupNode y = false) (cds : List (Int × Int)) (hd : Int) :
    soupifyGo l [y] ≠ [.soup cds hd] := by
  cases l with
  | nil =>
    rw [soupifyGo]
    intro hyp
    simp only [List.cons.injEq, and_true] at hyp
    rw [hyp] at hy
    simp [isSoupNode] at hy
  | cons i rest =>
    have main : ∀ (z : SoupInstr) (t : List SoupInstr),
        soupifyGo rest ((z :: t) ++ [y]) ≠ [.soup cds hd] := by
      intro z t
      rw [soupifyGo_append_acc rest (z :: t) [y] (by simp)]
      intro hyp
      cases hpre : soupifyGo rest (z :: t) with
      | nil => exact soupifyGo_ne_nil rest (z :: t) (by simp) hpre
      | cons w pre' =>
        rw [hpre] at hyp
        simp only [List.cons_append, List.cons.injEq] at hyp
        have := hyp.2
        rcases List.append_eq_nil.mp this with ⟨_, hcontra⟩
        simp at hcontra
    have hps : ∀ i2 : RawInstr, primStep [y] i2 = [primApply [] 0 i2, y] := by
      intro i2
      cases y <;> first
        | rfl
        | simp [isSoupNode] at hy
    cases i with
    | plus =>
      rw [soupifyGo, hps]
      exact main _ []
    | minus =>
      rw [soupifyGo, hps]
      exact main _ []
    | left =>
      rw [soupifyGo, hps]
      exact main _ []
    | right =>
      rw [soupifyGo, hps]
      exact main _ []
    | output =>
      rw [soupifyGo]
      exact main _ []
    | input =>
      rw [soupifyGo]
      exact main _ []
    | bracketLoop body =>
      rw [soupifyGo]
      exact main _ []

/-- Inversion: a loop body that soupifies to exactly one batch is a
primitive-only sequence whose `batchAcc` fold is that batch. -/
theorem soupify_single_soup {b : List RawInstr} {cds : List (Int × Int)} {hd : Int}
    (h : soupify b = [.soup cds hd]) :
    (∀ i ∈ b, isPrim i = true) ∧ b.foldl batchAcc ([], 0) = (cds, hd) := by
  rw [soupify] at h
  have h' : soupifyGo b [] = [.soup cds hd] := by
    have hrr := congrArg List.reverse h
    simpa using hrr
  cases b with
  | nil =>
    rw [soupifyGo] at h'
    simp at h'
  | cons i rest =>
    cases i with
    | plus =>
      rw [soupifyGo] at h'
      obtain ⟨hp, hf⟩ := soupifyGo_single_soup rest _ _ _ _ h'
      refine ⟨?_, by rw [List.foldl_cons]; exact hf⟩
      intro x hx
      rcases List.mem_cons.mp hx with hx1 | hx2
      · rw [hx1]; rfl
      · exact hp x hx2
    | minus =>
      rw [soupifyGo] at h'
      obtain ⟨hp, hf⟩ := soupifyGo_single_soup rest _ _ _ _ h'
      refine ⟨?_, by rw [List.foldl_cons]; exact hf⟩
      intro x hx
      rcases List.mem_cons.mp hx with hx1 | hx2
      · rw [hx1]; rfl
      · exact hp x hx2
    | left =>
      rw [soupifyGo] at h'
      obtain ⟨hp, hf⟩ := soupifyGo_single_soup rest _ _ _ _ h'
      refine ⟨?_, by rw [List.foldl_cons]; exact hf⟩
      intro x hx
      rcases List.mem_cons.mp hx with hx1 | hx2
      · rw [hx1]; rfl
      · exact hp x hx2
    | right =>
      rw [soupifyGo] at h'
      obtain ⟨hp, hf⟩ := soupifyGo_single_soup rest _ _ _ _ h'
      refine ⟨?_, by rw [List.foldl_cons]; exact hf⟩
      intro x hx
      rcases List.mem_cons.mp hx with hx1 | hx2
      · rw [hx1]; rfl
      · exact hp x hx2
    | output =>
      rw [soupifyGo] at h'
      exact absurd h' (soupifyGo_non_soup_bottom rest _ (by rfl) cds hd)
    | input =>
      rw [soupifyGo] at h'
      exact absurd h' (soupifyGo_non_soup_bottom rest _ (by rfl) cds hd)
    | bracketLoop body =>
      rw [soupifyGo] at h'
      exact absurd h'
        (soupifyGo_non_soup_bottom rest _ (classify_not_soup _) cds hd)

/-- Composing one more body execution onto `u` accumulated iterations. -/
theorem describes_comp {m0 : VmMem} {cds : List (Int × Int)} {u : Nat} {m1 m2 : VmMem}
    (h1 : Describes m0 (scaleList cds u) 0 m1) (h2 : Describes m1 cds 0 m2) :
    Describes m0 (scaleList cds (u + 1)) 0 m2 where
  headEq := by
    have a := h1.headEq
    have b := h2.headEq
    omega
  headLt := h2.headLt
  cells := fun j => by
    have hhead : (m1.head : Int) = (m0.head : Int) := by
      have := h1.headEq
      omega
    have hc2 := h2.cells j
    rw [hhead] at hc2
    have hc1 := h1.cells j
    rw [lookupD_scaleList] at hc1
    rw [lookupD_scaleList]
    have hdist : lookupD cds ((j : Int) - (m0.head : Int)) * ((u : Int) + 1) =
        lookupD cds ((j : Int) - (m0.head : Int)) * (u : Int) +
          lookupD cds ((j : Int) - (m0.head : Int)) := by ring
    push_cast
    omega
  keysOk := fun k hk => by
    have hk' : k ∈ cds.map Prod.fst := by
      rw [scaleList_keys] at hk
      exact hk
    have hb := h2.keysOk k hk'
    have hhead : (m1.head : Int) = (m0.head : Int) := by
      have := h1.headEq
      omega
    rw [hhead] at hb
    exact hb
  interactEq := h2.interactEq.trans h1.interactEq
  inputEq := h2.inputEq.trans h1.inputEq
  outputEq := h2.outputEq.trans h1.outputEq
  stdinEq := h2.stdinEq.trans h1.stdinEq

/-- Unrolling the raw `while` loop: starting after `u` of `n0` iterations,
a successful run of the loop node performs exactly the remaining
iterations. -/
theorem loop_iterate (stdin : Nat → Nat) {m0 : VmMem} {b : List RawInstr}
    {cds : List (Int × Int)} {n0 : Nat}
    (hprim : ∀ i ∈ b, isPrim i = true)
    (hfoldc : b.foldl batchAcc ([], 0) = (cds, 0))
    (hd0 : lookupD cds 0 = -1)
    (hn : n0 = m0.get m0.head) (hn255 : n0 < 256) :
    ∀ (fuel : Nat) (u : Nat) (m_u mr : VmMem), u ≤ n0 →
      Describes m0 (scaleList cds u) 0 m_u →
      runRawGo stdin fuel [.bracketLoop b] m_u = .ok mr →
      Describes m0 (scaleList cds n0) 0 mr := by
  intro fuel
  induction fuel using Nat.strong_induction_on with
  | _ fuel ih =>
    intro u m_u mr hu hdesc hrun
    have hheadu : m_u.head = m0.head := by
      have := hdesc.headEq
      omega
    have hval : m_u.get m_u.head = n0 - u := by
      have hc := hdesc.cells m0.head
      rw [lookupD_scaleList] at hc
      simp only [sub_self, hd0] at hc
      rw [hheadu]
      omega
    cases fuel with
    | zero => simp [runRawGo] at hrun
    | succ f =>
      rw [runRawGo] at hrun
      by_cases hz : u = n0
      · rw [if_neg (by omega)] at hrun
        rw [runRawGo] at hrun
        injection hrun with hh
        rw [← hh, ← hz]
        exact hdesc
      · rw [if_pos (by omega)] at hrun
        obtain ⟨f1, f2, mid, hle, h1, h2⟩ := runRawGo_split stdin f b _ m_u mr hrun
        have hdinit : Describes m_u [] 0 m_u :=
          describes_init m_u (describes_get_lt hdesc) hdesc.headLt
        have hseg := seg_describes stdin b hprim f1 [] 0 m_u mid hdinit h1
        rw [hfoldc] at hseg
        have hcomp := describes_comp hdesc hseg
        exact ih f2 (by omega) (u + 1) mid mr (by omega) hcomp h2

/-- Effect of the `MultFixedLoop` delta loop: each cell at relative offset
`k` (distinct keys, all denoting in-range positions) is shifted by
`delta * n` mod 256; the head and all other state is untouched. -/
theorem applyMultDeltas_describe (n : Int) :
    ∀ (c : List (Int × Int)) (m : VmMem),
    (∀ k ∈ c.map Prod.fst, 0 ≤ (m.head : Int) + k ∧ (m.head : Int) + k < (U64 : Int)) →
    (c.map Prod.fst).Nodup → (∀ j, m.get j < 256) →
    (applyMultDeltas m c n).head = m.head ∧
    (applyMultDeltas m c n).interact_with_user = m.interact_with_user ∧
    (applyMultDeltas m c n).input_stack = m.input_stack ∧
    (applyMultDeltas m c n).output_stack = m.output_stack ∧
    (applyMultDeltas m c n).stdin_pos = m.stdin_pos ∧
    (∀ j : Nat, ((applyMultDeltas m c n).get j : Int) =
      ((m.get j : Int) + lookupD c ((j : Int) - (m.head : Int)) * n) % 256) := by
  intro c
  induction c with
  | nil =>
    intro m _ _ hlt
    refine ⟨rfl, rfl, rfl, rfl, rfl, ?_⟩
    intro j
    have hz : applyMultDeltas m [] n = m := rfl
    rw [hz, lookupD_nil, zero_mul, add_zero]
    have := hlt j
    omega
  | cons e c' ih =>
    intro m hkeys hnd hlt
    have hkey := hkeys e.1 (by simp)
    have hidx : wrapCast ((m.head : Int) + e.1) = ((m.head : Int) + e.1).toNat :=
      wrapCast_of_bounds _ hkey.1 hkey.2
    have hstep : applyMultDeltas m (e :: c') n = applyMultDeltas (multCellStep n m e) c' n := by
      rw [applyMultDeltas, List.foldl_cons, ← applyMultDeltas]
    set idx := ((m.head : Int) + e.1).toNat with hidxdef
    have hget' : ∀ j, (multCellStep n m e).get j =
        if j = idx then (((m.get idx : Int) + e.2 * n) % 256).toNat else m.get j := by
      intro j
      rw [multCellStep_eq_incr, incr_get, hidx, wrapCast8_eq]
    have hlt' : ∀ j, (multCellStep n m e).get j < 256 := by
      intro j
      rw [hget']
      split
      · have h1 : (0 : Int) ≤ ((m.get idx : Int) + e.2 * n) % 256 :=
          Int.emod_nonneg _ (by norm_num)
        have h2 : ((m.get idx : Int) + e.2 * n) % 256 < 256 :=
          Int.emod_lt_of_pos _ (by norm_num)
        omega
      · exact hlt j
    have hhead' : (multCellStep n m e).head = m.head := by
      rw [multCellStep_eq_incr, incr_head]
    have hih := ih (multCellStep n m e)
      (by rw [hhead']; exact fun k hk => hkeys k (by simp [hk]))
      (by rw [List.map_cons] at hnd; exact hnd.of_cons) hlt'
    rw [hstep]
    refine ⟨hih.1.trans hhead', ?_, ?_, ?_, ?_, ?_⟩
    · rw [hih.2.1, multCellStep_eq_incr, incr_interact]
    · rw [hih.2.2.1, multCellStep_eq_incr, incr_input]
    · rw [hih.2.2.2.1, multCellStep_eq_incr, incr_output]
    · rw [hih.2.2.2.2.1, multCellStep_eq_incr, incr_stdin]
    · intro j
      have hc := hih.2.2.2.2.2 j
      rw [hhead'] at hc
      rw [hc, hget' j, lookupD_cons]
      rcases eq_or_ne j idx with hj | hj
      · have hoff : (j : Int) - (m.head : Int) = e.1 := by omega
        have hnotin : lookupD c' e.1 = 0 := by
          rcases hl : c'.lookup e.1 with _ | v
          · rw [lookupD, hl]
            rfl
          · exfalso
            rw [List.map_cons, List.nodup_cons] at hnd
            refine hnd.1 ?_
            rcases List.lookup_eq_some_iff.mp hl with ⟨l1, l2, hsplit, _⟩
            rw [hsplit]
            simp
        rw [if_pos hj, hoff, if_pos rfl, hnotin, zero_mul, add_zero]
        have h1 : (0 : Int) ≤ ((m.get idx : Int) + e.2 * n) % 256 :=
          Int.emod_nonneg _ (by norm_num)
        have hgetj : m.get j = m.get idx := by rw [hj]
        omega
      · have hoffne : (j : Int) - (m.head : Int) ≠ e.1 := by omega
        rw [if_neg hj, if_neg hoffne]

/-- With factor `n = 0` the `MultFixedLoop` delta loop rewrites every
touched cell with its current value: the tape is extensionally unchanged. -/
theorem applyMultDeltas_zero :
    ∀ (c : List (Int × Int)) (m : VmMem), (∀ j, m.get j < 256) →
    (applyMultDeltas m c 0).head = m.head ∧
    (applyMultDeltas m c 0).interact_with_user = m.interact_with_user ∧
    (applyMultDeltas m c 0).input_stack = m.input_stack ∧
    (applyMultDeltas m c 0).output_stack = m.output_stack ∧
    (applyMultDeltas m c 0).stdin_pos = m.stdin_pos ∧
    (∀ j, (applyMultDeltas m c 0).get j = m.get j) := by
  intro c
  induction c with
  | nil =>
    intro m _
    exact ⟨rfl, rfl, rfl, rfl, rfl, fun j => rfl⟩
  | cons e c' ih =>
    intro m hlt
    have hstep : applyMultDeltas m (e :: c') 0 = applyMultDeltas (multCellStep 0 m e) c' 0 := by
      rw [applyMultDeltas, List.foldl_cons, ← applyMultDeltas]
    have hget' : ∀ j, (multCellStep 0 m e).get j = m.get j := by
      intro j
      rw [multCellStep_eq_incr, incr_get]
      split <;> rename_i hj
      · rw [wrapCast8_eq, hj]
        have hb := hlt (wrapCast ((m.head : Int) + e.1))
        simp only [mul_zero, add_zero]
        omega
      · rfl
    have hih := ih (multCellStep 0 m e) (fun j => by rw [hget']; exact hlt j)
    rw [hstep]
    refine ⟨hih.1.trans ?_, hih.2.1.trans ?_, hih.2.2.1.trans ?_, hih.2.2.2.1.trans ?_,
      hih.2.2.2.2.1.trans ?_, fun j => (hih.2.2.2.2.2 j).trans (hget' j)⟩
    · rw [multCellStep_eq_incr, incr_head]
    · rw [multCellStep_eq_incr, incr_interact]
    · rw [multCellStep_eq_incr, incr_input]
    · rw [multCellStep_eq_incr, incr_output]
    · rw [multCellStep_eq_incr, incr_stdin]

/-- Well-formed reachable VM state: byte cells and an in-range head. -/
def VmWf (m : VmMem) : Prop := (∀ v ∈ m.cell_vec, v < 256) ∧ m.head < U64

/-- Extensional agreement of two VM states: same head, same I/O state, and
the same value in every cell (the backing vectors may differ in length
where only zeros were materialised). -/
def MemExt (m1 m2 : VmMem) : Prop :=
  m1.head = m2.head ∧ m1.interact_with_user = m2.interact_with_user ∧
  m1.input_stack = m2.input_stack ∧ m1.output_stack = m2.output_stack ∧
  m1.stdin_pos = m2.stdin_pos ∧ ∀ j, m1.get j = m2.get j

/-- C2: for every starting head-cell value (0..255, enforced by
well-formedness) and every loop whose body soupifies to a single batch with
`head_delta = 0` and offset-0 delta `-1`, executing the `MultFixedLoop` node
once in the IR engine yields exactly the same tape state (extensionally) as
the raw engine naively re-executing the original loop body until the head
cell reaches 0. -/
theorem c2_multFixedLoop_matches_naive (stdin : Nat → Nat) (b : List RawInstr)
    (cds : List (Int × Int)) (m mr : VmMem) (fuel : Nat)
    (hwf : VmWf m)
    (hsoup : soupify b = [.soup cds 0])
    (hd0 : lookupD cds 0 = -1)
    (hraw : runRawGo stdin fuel [.bracketLoop b] m = .ok mr) :
    ∃ ms, runSoupGo stdin 1 [.multFixedLoop cds] m = .ok ms ∧ MemExt ms mr := by
  obtain ⟨hprim, hfold⟩ := soupify_single_soup hsoup
  have hlk : cds.lookup 0 = some (-1) := by
    rcases hl : cds.lookup 0 with _ | v
    · rw [lookupD, hl] at hd0
      simp at hd0
    · rw [lookupD, hl] at hd0
      simp at hd0
      rw [hd0]
  have hglt : ∀ j, m.get j < 256 := VmWf_get_lt m hwf.1
  have hnodup : (cds.map Prod.fst).Nodup := by
    have hh := batchAcc_fold_nodup b [] 0 (by simp)
    rw [hfold] at hh
    exact hh
  have hsoupstep : runSoupGo stdin 1 [.multFixedLoop cds] m =
      .ok ((applyMultDeltas m cds ((m.get m.head : Int))).set
        (applyMultDeltas m cds ((m.get m.head : Int))).head 0) := by
    rw [runSoupGo, if_pos hlk]
    rfl
  refine ⟨_, hsoupstep, ?_⟩
  by_cases hn0 : m.get m.head = 0
  · have hmr : mr = m := by
      cases fuel with
      | zero => simp [runRawGo] at hraw
      | succ f =>
        rw [runRawGo, if_neg (by simp [hn0])] at hraw
        rw [runRawGo] at hraw
        injection hraw with hh
        exact hh.symm
    have hcast0 : ((m.get m.head : Nat) : Int) = 0 := by simp [hn0]
    rw [hcast0]
    obtain ⟨hh, hi, hin, ho, hs, hg⟩ := applyMultDeltas_zero cds m hglt
    subst hmr
    refine ⟨?_, ?_, ?_, ?_, ?_, ?_⟩
    · rw [VmMem.head_set, hh]
    · rw [(VmMem.set_fields _ _ _).2.1, hi]
    · rw [(VmMem.set_fields _ _ _).2.2.1, hin]
    · rw [(VmMem.set_fields _ _ _).2.2.2.1, ho]
    · rw [(VmMem.set_fields _ _ _).2.2.2.2, hs]
    · intro j
      rw [VmMem.get_set]
      split <;> rename_i hj
      · rw [hj, hh]
        exact hn0.symm
      · exact hg j
  · cases fuel with
    | zero => simp [runRawGo] at hraw
    | succ f =>
      rw [runRawGo, if_pos hn0] at hraw
      obtain ⟨f1, f2, mid, hle, h1, h2⟩ := runRawGo_split stdin f b _ m mr hraw
      have hdinit : Describes m [] 0 m := describes_init m hglt hwf.2
      have hseg := seg_describes stdin b hprim f1 [] 0 m mid hdinit h1
      rw [hfold] at hseg
      have hseg1 : Describes m (scaleList cds 1) 0 mid := by
        rw [scaleList_one]
        exact hseg
      have hdescr := loop_iterate stdin hprim hfold hd0 rfl (hglt m.head)
        f2 1 mid mr (by omega) hseg1 h2
      have hkeys := hseg.keysOk
      obtain ⟨hmh, hmi, hmin, hmo, hms, hmg⟩ :=
        applyMultDeltas_describe ((m.get m.head : Int)) cds m hkeys hnodup hglt
      have hmrhead : mr.head = m.head := by
        have := hdescr.headEq
        omega
      refine ⟨?_, ?_, ?_, ?_, ?_, ?_⟩
      · rw [VmMem.head_set, hmh, hmrhead]
      · rw [(VmMem.set_fields _ _ _).2.1, hmi, hdescr.interactEq]
      · rw [(VmMem.set_fields _ _ _).2.2.1, hmin, hdescr.inputEq]
      · rw [(VmMem.set_fields _ _ _).2.2.2.1, hmo, hdescr.outputEq]
      · rw [(VmMem.set_fields _ _ _).2.2.2.2, hms, hdescr.stdinEq]
      · intro j
        rw [VmMem.get_set, hmh]
        have hcr := hdescr.cells j
        rw [lookupD_scaleList] at hcr
        split <;> rename_i hj
        · rw [hj] at hcr ⊢
          rw [show ((m.head : Nat) : Int) - ((m.head : Nat) : Int) = 0 from by omega,
            hd0] at hcr
          omega
        · have hmgj := hmg j
          omega

/-- Witness for C2 at the concrete loop body `-` (so the whole loop is
`[-]`) with starting head-cell value 3. -/
theorem c2_multFixedLoop_matches_naive_witness :
    ∃ ms, runSoupGo (fun _ => 0) 1 [SoupInstr.multFixedLoop [(0, -1)]]
        ((VmMem.new (some [])).set 0 3) = .ok ms ∧
      MemExt ms (VmMem.mk [0] 0 false [0] [] 0) :=
  c2_multFixedLoop_matches_naive (fun _ => 0) [RawInstr.minus] [(0, -1)]
    ((VmMem.new (some [])).set 0 3) (VmMem.mk [0] 0 false [0] [] 0) 10
    ⟨by decide, by decide⟩
    (by simp [soupify, soupifyGo, primStep, primApply, updateEntry])
    rfl
    (by decide)

/-! ## Claim C1 -/

/-- C1 (code-bug evidence): the structurally valid 7-character program
`[>+<]>.` with an empty input buffer is parsed successfully, its raw
interpretation outputs the single byte 0 (the loop guard reads head cell 0
and the loop body never runs), but its soupified IR interpretation outputs
the byte 1: the `SoupFixedLoop` applies its batch once before the first
test of the head cell, incrementing cell 1.  The outputs are not
byte-identical. -/
theorem c1_raw_and_soup_outputs_differ :
    parse_instr_seq ['[', '>', '+', '<', ']', '>', '.'] =
      .ok [RawInstr.bracketLoop [RawInstr.right, RawInstr.plus, RawInstr.left],
        RawInstr.right, RawInstr.output] ∧
    soupify [RawInstr.bracketLoop [RawInstr.right, RawInstr.plus, RawInstr.left],
        RawInstr.right, RawInstr.output] =
      [SoupInstr.soupFixedLoop [(1, 1)], SoupInstr.soup [] 1, SoupInstr.output] ∧
    (∃ mr ms : VmMem,
      run_raw (fun _ => 0) 50
          [RawInstr.bracketLoop [RawInstr.right, RawInstr.plus, RawInstr.left],
            RawInstr.right, RawInstr.output] (some []) = .ok mr ∧
      run_soup (fun _ => 0) 50
          [SoupInstr.soupFixedLoop [(1, 1)], SoupInstr.soup [] 1, SoupInstr.output]
          (some []) = .ok ms ∧
      mr.output_stack = [0] ∧ ms.output_stack = [1]) := by
  refine ⟨rfl, ?_, ⟨_, _, rfl, rfl, rfl, rfl⟩⟩
  simp [soupify, soupifyGo, primStep, primApply, updateEntry, classify, lookupD,
    List.lookup]

end XXBF
